import Mathlib

/-!
Shallow embedding of the rstf container tool (`src/main.rs`).

Byte strings are `List Nat` (each entry one byte; byte-range side conditions
appear as hypotheses where a proof needs them).  The tool's own logic —
credential processing, the chunked sealer `EncryptedWriter`, the chunked opener
`DecryptedReader`, and the `pack`/`unpack` orchestrators — is translated
directly from the source.  External crates at the boundary are modelled:

* ChaCha20-Poly1305 in the `aead::stream` BE32 construction: the keystream is
  abstracted away (ciphertext body = plaintext), and the 16-byte Poly1305 tag
  is modelled as a 16-entry list that binds the key, the base nonce, the frame
  counter, the last-frame flag and the frame body injectively.  Opening checks
  the tag and fails otherwise, which is exactly the interface behaviour the
  source relies on.  The 32-bit frame counter of `StreamBE32` errors out when
  it can no longer be incremented; that is the `COUNTER_MAX` guard below.
* SHA-256 (`sha2`): a deterministic 32-byte digest of the keyfile contents.
* Argon2 (`argon2`): a deterministic function of the combined credential bytes
  and the salt producing a 32-entry key.
* zstd: a black-box codec; `pack`/`unpack` take the encoder `comp` and decoder
  `decomp` as parameters, and round-trip facts assume `decomp (comp s) = some s`.

All recursion is structural (loops carry explicit fuel, with fuel chosen so
that it never runs out on the loop's actual traces), so every definition
evaluates by `decide`/`rfl` on concrete inputs.
-/

namespace Rstf

/-- `CHUNK_SIZE` from the source: plaintext chunk size, `64 * 1024`. -/
def CHUNK_SIZE : Nat := 64 * 1024

/-- Wire size of a full encrypted frame: `CHUNK_SIZE + 16` (body plus 16-byte tag),
`encrypted_chunk_size` in `DecryptedReader::read`. -/
def ENC_CHUNK_SIZE : Nat := CHUNK_SIZE + 16

/-- The `StreamBE32` frame counter is a `u32`; `encrypt_next`/`decrypt_next` fail once
the position can no longer be incremented, i.e. a frame can only be sealed or opened
at a counter strictly below `2 ^ 32 - 1`. -/
def COUNTER_MAX : Nat := 2 ^ 32 - 1

/-- Little-endian encoding of `n` on `k` bytes (`to_le_bytes`); high bits beyond
`256 ^ k` are truncated, as a Rust integer cast does. -/
def le (k n : Nat) : List Nat := (List.range k).map (fun i => n / 256 ^ i % 256)

/-- Value of a little-endian byte list (`from_le_bytes`). -/
def bval : List Nat → Nat
  | [] => 0
  | a :: t => a + 256 * bval t

/-- Injective code of a byte list as one natural number (length paired with the
little-endian value), used by the models of the external primitives. -/
def encL (l : List Nat) : Nat := Nat.pair l.length (bval l)

/-- Model of SHA-256 over the keyfile contents: a deterministic 32-byte digest.
Collision resistance is not assumed anywhere. -/
def sha256M (data : List Nat) : List Nat := le 32 (encL data)

/-- Model of `Argon2::default().hash_password_into(combined, salt, out32)`: a
deterministic 32-entry key determined by the combined credential bytes and the
salt.  The first entry carries an injective code of the two inputs; this is the
idealisation that the KDF does not collide on distinct (credentials, salt)
pairs. -/
def argon2M (combined salt : List Nat) : List Nat :=
  Nat.pair (encL combined) (encL salt) :: List.replicate 31 0

/-- The credentials a user supplies: the prompted password (UTF-8 bytes) and the
optional keyfile's contents. -/
structure Creds where
  password : List Nat
  keyfile : Option (List Nat)
deriving DecidableEq

/-- The credential buffers as they stand when `process_credentials` returns:
the source calls `password.zeroize()` and `combined_credentials.zeroize()`, but the
SHA-256 digest (`hash`) is dropped without being wiped. -/
structure CredBuffers where
  password : List Nat
  digest : Option (List Nat)
  combined : List Nat
deriving DecidableEq

/-- `process_credentials`, with the final state of the credential buffers made
explicit: build `combined = password ++ sha256(keyfile)` (or `password` alone),
derive the 32-byte key with Argon2 over the container salt, then zeroize the
password and the combined buffer.  The digest buffer is returned as the source
leaves it — unwiped. -/
def processCredentialsFull (c : Creds) (salt : List Nat) : List Nat × CredBuffers :=
  let digest := c.keyfile.map sha256M
  let combined := c.password ++ (match digest with | some d => d | none => [])
  let key := argon2M combined salt
  (key, { password := List.replicate c.password.length 0
          digest := digest
          combined := List.replicate combined.length 0 })

/-- The derived key returned by `process_credentials`. -/
def processCredentials (c : Creds) (salt : List Nat) : List Nat :=
  (processCredentialsFull c salt).1

/-- The combined credential byte string `password_utf8_bytes ++ sha256(keyfile)`
(or the password alone without a keyfile). -/
def combinedCreds (c : Creds) : List Nat :=
  c.password ++ (match c.keyfile with | some kf => sha256M kf | none => [])

/-- The spec's wording of the KDF (§4.1): concatenate password and keyfile digest
when a keyfile is given, otherwise the password alone; Argon2 with the container
salt, 32-byte output. -/
def specDerivedKey (password : List Nat) (keyfile : Option (List Nat)) (salt : List Nat) :
    List Nat :=
  argon2M (match keyfile with | some kf => password ++ sha256M kf | none => password) salt

/-- `RstfHeader` from the source; `original_name` is kept as its UTF-8 bytes. -/
structure RstfHeader where
  is_dir : Bool
  original_name : List Nat
  original_size : Nat
deriving DecidableEq

/-- `bincode::serialize` of `RstfHeader` with bincode's legacy default options:
fixed-width little-endian integers, a `bool` as one byte, a string as a `u64`
length followed by its bytes. -/
def serializeHeader (h : RstfHeader) : List Nat :=
  [if h.is_dir then 1 else 0] ++ le 8 h.original_name.length ++ h.original_name
    ++ le 8 h.original_size

/-- `bincode::deserialize` of `RstfHeader` (legacy default options: invalid bool
bytes are rejected, trailing bytes are permitted). -/
def deserializeHeader (b : List Nat) : Option RstfHeader :=
  match b with
  | [] => none
  | d :: rest =>
    if d ≤ 1 then
      if 8 ≤ rest.length then
        let n := bval (rest.take 8)
        let r2 := rest.drop 8
        if n + 8 ≤ r2.length then
          some { is_dir := d == 1
                 original_name := r2.take n
                 original_size := bval ((r2.drop n).take 8) }
        else none
      else none
    else none

/-- Model of the per-frame Poly1305 tag of the `StreamBE32` construction.  The
real construction derives the frame nonce as `base_nonce ++ counter_be32 ++
last_flag` and tags the ciphertext; the model keeps exactly the authenticated
data — key, base nonce, counter, last-frame flag, frame body — as an injective
16-entry code. -/
def tagBytes (key nonce : List Nat) (counter : Nat) (last : Bool) (body : List Nat) :
    List Nat :=
  [encL key, encL nonce, counter, if last then 1 else 0, encL body]
    ++ List.replicate 11 0

/-- One sealed frame on the wire: body (keystream abstracted away) followed by the
16-byte tag.  `encrypt_next` always seals with `last = false`; `encrypt_last`
(never called by the source) would seal with `last = true`. -/
def sealFrame (key nonce : List Nat) (counter : Nat) (last : Bool) (pt : List Nat) :
    List Nat :=
  pt ++ tagBytes key nonce counter last pt

/-- Opening one frame (`decrypt_next` for `last = false`): check the length, split
off the 16-byte tag, recompute it over the body, and fail on mismatch. -/
def openFrame (key nonce : List Nat) (counter : Nat) (last : Bool) (ct : List Nat) :
    Option (List Nat) :=
  if ct.length < 16 then none
  else
    let body := ct.take (ct.length - 16)
    if ct.drop (ct.length - 16) = tagBytes key nonce counter last body then some body
    else none

/-- `EncryptedWriter`: the sealer's state.  `frames` accumulates the wire frames
written to the inner sink, in order (the inner `BufWriter` is a plain byte sink,
so the flat output is `frames.flatten`). -/
structure EncryptedWriter where
  key : List Nat
  nonce : List Nat
  counter : Nat
  buffer : List Nat
  frames : List (List Nat)
deriving DecidableEq

/-- `EncryptedWriter::new`: fresh encryptor (counter 0), empty buffer. -/
def EncryptedWriter.init (key nonce : List Nat) : EncryptedWriter :=
  { key, nonce, counter := 0, buffer := [], frames := [] }

/-- `EncryptedWriter::flush_chunk`: return immediately when the buffer is empty and
this is not the final chunk; otherwise seal the buffer with `encrypt_next` — note:
with the last-frame flag `false` even when `final = true`, exactly as the source
does — emit the frame, and clear the buffer.  `none` models the `encrypt_next`
error when the 32-bit frame counter cannot be incremented. -/
def flushChunk (final : Bool) (w : EncryptedWriter) : Option EncryptedWriter :=
  if w.buffer.isEmpty ∧ final = false then some w
  else if w.counter < COUNTER_MAX then
    some { w with
            frames := w.frames ++ [sealFrame w.key w.nonce w.counter false w.buffer]
            counter := w.counter + 1
            buffer := [] }
  else none

/-- The loop body of `<EncryptedWriter as Write>::write`: copy
`min (CHUNK_SIZE - buffer.len()) (remaining data)` bytes into the buffer, seal a
non-final chunk whenever the buffer fills, and repeat.  The fuel (one unit per
iteration; each iteration copies at least one byte) makes the recursion
structural; the `c = 0` branch is unreachable because the buffer always holds
fewer than `CHUNK_SIZE` bytes between iterations. -/
def writeLoop : Nat → EncryptedWriter → List Nat → Option EncryptedWriter
  | _, w, [] => some w
  | 0, _, _ :: _ => none
  | fuel + 1, w, data =>
    let c := min (CHUNK_SIZE - w.buffer.length) data.length
    if c = 0 then none
    else
      let w1 : EncryptedWriter := { w with buffer := w.buffer ++ data.take c }
      (if w1.buffer.length = CHUNK_SIZE then flushChunk false w1 else some w1).bind
        fun w2 => writeLoop fuel w2 (data.drop c)

/-- `write_all` on the sealer: the write loop consumes all of `data`. -/
def writeBytes (w : EncryptedWriter) (data : List Nat) : Option EncryptedWriter :=
  writeLoop data.length w data

/-- `<EncryptedWriter as Drop>::drop`: `let _ = self.flush_chunk(true)` — a final
flush whose error is swallowed. -/
def dropWriter (w : EncryptedWriter) : EncryptedWriter :=
  (flushChunk true w).getD w

/-- One caller-visible operation on the sealer: a `write_all` or an explicit
`flush` (which the source implements as `flush_chunk(true)` followed by flushing
the inner sink). -/
inductive WOp where
  | write (data : List Nat)
  | flush
deriving DecidableEq

/-- Run a sequence of caller operations on the sealer. -/
def runOps (w : EncryptedWriter) : List WOp → Option EncryptedWriter
  | [] => some w
  | .write d :: ops => (writeBytes w d).bind fun w1 => runOps w1 ops
  | .flush :: ops => (flushChunk true w).bind fun w1 => runOps w1 ops

/-- The full-`CHUNK_SIZE` pieces of a byte string, in order. -/
def fullChunks (l : List Nat) : List (List Nat) :=
  (List.range (l.length / CHUNK_SIZE)).map (fun i => (l.drop (i * CHUNK_SIZE)).take CHUNK_SIZE)

/-- The remainder of a byte string after its full chunks (strictly shorter than
`CHUNK_SIZE`). -/
def remChunk (l : List Nat) : List Nat := l.drop (l.length / CHUNK_SIZE * CHUNK_SIZE)

/-- The number of full chunks. -/
def numFullChunks (l : List Nat) : Nat := l.length / CHUNK_SIZE

/-- Seal a list of plaintext chunks with consecutive counters starting at `c`,
all with the last-frame flag clear (the only sealing the source performs). -/
def sealRange (key nonce : List Nat) : Nat → List (List Nat) → List (List Nat)
  | _, [] => []
  | c, p :: ps => sealFrame key nonce c false p :: sealRange key nonce (c + 1) ps

/-- The plaintext chunks a full sealer lifetime without intermediate flushes cuts
`pt` into: the full chunks followed by the (possibly empty) remainder sealed at
close. -/
def chunkPlains (pt : List Nat) : List (List Nat) := fullChunks pt ++ [remChunk pt]

/-- The corresponding wire frames, counters `0, 1, …`. -/
def chunkFrames (key nonce pt : List Nat) : List (List Nat) :=
  sealRange key nonce 0 (chunkPlains pt)

/-- The sealed stream: the wire frames, concatenated. -/
def sealedStream (key nonce pt : List Nat) : List Nat :=
  (chunkFrames key nonce pt).flatten

/-- The sealer lifetime inside `pack` (file case): derive the key, then write the
4-byte little-endian header length, the serialized header, and the compressed
payload `comp B` into the sealer (the zstd encoder is a black box delivering
`comp B` to its inner writer; `writeBytes` is insensitive to call granularity),
and finally close the sealer by `Drop`, which swallows a final-flush error. -/
def packWriter (comp : List Nat → List Nat) (creds : Creds) (salt nonce name B : List Nat) :
    Option EncryptedWriter :=
  let key := processCredentials creds salt
  let hb := serializeHeader { is_dir := false, original_name := name, original_size := B.length }
  (writeBytes (EncryptedWriter.init key nonce) (le 4 hb.length)).bind fun w1 =>
    (writeBytes w1 hb).bind fun w2 =>
      (writeBytes w2 (comp B)).bind fun w3 => some (dropWriter w3)

/-- `pack` for a regular file: the container is the 16-byte salt and the 7-byte
base nonce in clear, followed by the flat sealed stream.  (Salt and nonce are
drawn randomly by the source; here they are parameters.) -/
def pack (comp : List Nat → List Nat) (creds : Creds) (salt nonce name B : List Nat) :
    Option (List Nat) :=
  (packWriter comp creds salt nonce name B).map (fun w => salt ++ nonce ++ w.frames.flatten)

/-- The two error kinds that can come out of the opener: an AEAD failure
(`InvalidData`, "Decryption failed (MAC Error)") and `read_exact` hitting end of
stream (`UnexpectedEof`). -/
inductive IoErr where
  | macError
  | unexpectedEof
deriving DecidableEq

/-- `DecryptedReader`: the opener's state over a pure byte source `inner`. -/
structure DecryptedReader where
  inner : List Nat
  key : List Nat
  nonce : List Nat
  counter : Nat
  buffer : List Nat
  offset : Nat
  eof : Bool
deriving DecidableEq

/-- `DecryptedReader::new`. -/
def DecryptedReader.init (inner key nonce : List Nat) : DecryptedReader :=
  { inner, key, nonce, counter := 0, buffer := [], offset := 0, eof := false }

/-- The tail of `DecryptedReader::read`: serve `min (buffer.len() - offset) n`
bytes from the plaintext buffer and advance the offset. -/
def serveFrom (r : DecryptedReader) (n : Nat) : Except IoErr (List Nat × DecryptedReader) :=
  let c := min (r.buffer.length - r.offset) n
  .ok ((r.buffer.drop r.offset).take c, { r with offset := r.offset + c })

/-- `DecryptedReader::read` with a caller buffer of size `n`.  When the plaintext
buffer is exhausted: if `eof` is set return 0 bytes; otherwise read up to
`CHUNK_SIZE + 16` bytes from the inner source (the source's retry loop reads
until the staging buffer is full or the source is exhausted, which on a plain
byte source yields `min ENC_CHUNK_SIZE inner.length` bytes); zero bytes read
sets `eof` and returns 0; otherwise `decrypt_next` the bytes read, and set `eof`
whenever the read was short.  The counter guard models `decrypt_next`'s error
when the 32-bit position can no longer be incremented. -/
def readStep (r : DecryptedReader) (n : Nat) : Except IoErr (List Nat × DecryptedReader) :=
  if r.buffer.length ≤ r.offset then
    if r.eof then .ok ([], r)
    else
      let readBytes := min ENC_CHUNK_SIZE r.inner.length
      if readBytes = 0 then .ok ([], { r with eof := true })
      else
        (openFrame r.key r.nonce r.counter false (r.inner.take readBytes)).elim
          (.error .macError) fun pt =>
            if r.counter < COUNTER_MAX then
              serveFrom
                { r with
                    inner := r.inner.drop readBytes
                    counter := r.counter + 1
                    buffer := pt
                    offset := 0
                    eof := decide (readBytes < ENC_CHUNK_SIZE) } n
            else .error .macError
  else serveFrom r n

/-- The loop of `read_exact`: repeat `read` until `n` bytes are gathered; a read
of 0 bytes is `UnexpectedEof`.  Fuel: every successful iteration serves at least
one byte, so fuel `n` suffices. -/
def readExactLoop : Nat → DecryptedReader → Nat → Except IoErr (List Nat × DecryptedReader)
  | _, r, 0 => .ok ([], r)
  | 0, _, _ + 1 => .error .unexpectedEof
  | fuel + 1, r, n + 1 =>
    (readStep r (n + 1)).bind fun p =>
      if p.1.length = 0 then .error .unexpectedEof
      else
        (readExactLoop fuel p.2 (n + 1 - p.1.length)).bind fun q => .ok (p.1 ++ q.1, q.2)

/-- `read_exact` of `n` bytes. -/
def readExact (r : DecryptedReader) (n : Nat) : Except IoErr (List Nat × DecryptedReader) :=
  readExactLoop n r n

/-- Fuel bound for reading a stream to its end: every productive `read` either
serves buffered bytes (at most `buffer.length` times per frame) or consumes at
least 16 bytes of `inner`, so `inner.length + buffer.length + 1` iterations
always reach the trailing 0-byte read. -/
def readerFuel (r : DecryptedReader) : Nat := r.inner.length + r.buffer.length + 1

/-- The loop of `std::io::copy` / `read_to_end` over the opener: repeat `read`
(with the decompressor's request size, here `CHUNK_SIZE`; the concatenated
result does not depend on the request granularity) until a 0-byte read. -/
def readToEndLoop : Nat → DecryptedReader → Except IoErr (List Nat × DecryptedReader)
  | 0, _ => .error .unexpectedEof
  | fuel + 1, r =>
    (readStep r CHUNK_SIZE).bind fun p =>
      if p.1.isEmpty then .ok ([], p.2)
      else (readToEndLoop fuel p.2).bind fun q => .ok (p.1 ++ q.1, q.2)

/-- Read the remaining plaintext of the stream. -/
def readToEnd (r : DecryptedReader) : Except IoErr (List Nat × DecryptedReader) :=
  readToEndLoop (readerFuel r) r

/-- `unpack`'s error kinds as surfaced to the user. -/
inductive UnpackErr where
  | ioError
  | authError
  | formatError
  | compressionError
deriving DecidableEq

/-- `unpack`'s successful outcome: a regular file written as `original_name` with
the decompressed content, or (for a directory container) the decompressed tar
stream handed to the external tar consumer. -/
inductive UnpackOk where
  | file (name : List Nat) (content : List Nat)
  | dirStream (name : List Nat) (stream : List Nat)
deriving DecidableEq

/-- `unpack`: read the 16-byte salt and 7-byte base nonce in clear, derive the
key, construct the opener over the rest of the container, decrypt the 4-byte
little-endian header length and then the header, deserialize it, read the
remaining plaintext, and decompress it.  An AEAD failure while decrypting the
header surfaces as `authError` ("wrong password or wrong keyfile") before any
output file is created; the output file is created only on the success path,
after the header has authenticated.

How an opener error surfaces to the `unpack`/`list` user: an AEAD failure is
reported as "wrong password or wrong keyfile" (`authError`); an unexpected end of
stream inside `read_exact` is an I/O error. -/
def credErrTo : IoErr → UnpackErr
  | .macError => .authError
  | .unexpectedEof => .ioError

/-- `unpack` itself (see the comment above `credErrTo`). -/
def unpack (decomp : List Nat → Option (List Nat)) (creds : Creds) (container : List Nat) :
    Except UnpackErr UnpackOk :=
  if container.length < 23 then .error .ioError
  else
    let salt := container.take 16
    let nonce := (container.drop 16).take 7
    let key := processCredentials creds salt
    let r0 : DecryptedReader := DecryptedReader.init (container.drop 23) key nonce
    Except.bind (Except.mapError credErrTo (readExact r0 4)) fun p1 =>
      Except.bind (Except.mapError credErrTo (readExact p1.2 (bval p1.1))) fun p2 =>
        (deserializeHeader p2.1).elim (.error .formatError) fun header =>
          Except.bind (Except.mapError credErrTo (readToEnd p2.2)) fun p3 =>
            if header.is_dir then .ok (.dirStream header.original_name p3.1)
            else
              (decomp p3.1).elim (.error .compressionError) fun content =>
                .ok (.file header.original_name content)

/-- The plaintext chunk held in the opener's buffer after `j` frames of a sealed
stream over `pt` have been opened (empty before the first frame). -/
def plainBefore (pt : List Nat) (j : Nat) : List Nat :=
  if j = 0 then [] else (chunkPlains pt).getD (j - 1) []

/-- The opener's state after it has consumed `j` whole frames of
`sealedStream key nonce pt` and served `o` bytes of the `j`-th plaintext chunk. -/
def mkReader (key nonce pt : List Nat) (j o : Nat) : DecryptedReader :=
  { inner := ((chunkFrames key nonce pt).drop j).flatten
    key, nonce
    counter := j
    buffer := plainBefore pt j
    offset := o
    eof := j == numFullChunks pt + 1 }

/-- The plaintext still to be served from the state `mkReader key nonce pt j o`. -/
def suffixAt (pt : List Nat) (j o : Nat) : List Nat :=
  (plainBefore pt j).drop o ++ ((chunkPlains pt).drop j).flatten

/-- Whether a wire frame carries the AEAD last-frame flag (entry 3 of its tag). -/
def isLastFlaggedB (f : List Nat) : Bool :=
  (f.drop (f.length - 16))[3]? == some 1

/-! ### Basic facts about the byte codecs -/

theorem le_length (k n : Nat) : (le k n).length = k := by
  simp [le]

theorem le_succ (k n : Nat) : le (k + 1) n = n % 256 :: le k (n / 256) := by
  simp only [le, List.range_succ_eq_map, List.map_cons, List.map_map]
  refine congrArg₂ List.cons (by simp) (List.map_congr_left fun i _ => ?_)
  simp only [Function.comp_apply]
  rw [pow_succ, Nat.mul_comm, ← Nat.div_div_eq_div_mul]

theorem bval_le {k n : Nat} (h : n < 256 ^ k) : bval (le k n) = n := by
  induction k generalizing n with
  | zero =>
    have : n = 0 := by simpa using h
    simp [this, le, bval]
  | succ k ih =>
    rw [le_succ, bval, ih (by rw [Nat.div_lt_iff_lt_mul (by norm_num)]; calc
      n < 256 ^ (k + 1) := h
      _ = 256 ^ k * 256 := by rw [pow_succ])]
    exact Nat.mod_add_div n 256

theorem le_bytes_lt {k n : Nat} : ∀ a ∈ le k n, a < 256 := by
  intro a ha
  simp only [le, List.mem_map] at ha
  obtain ⟨i, _, rfl⟩ := ha
  exact Nat.mod_lt _ (by norm_num)

theorem bval_inj : ∀ l1 l2 : List Nat, (∀ a ∈ l1, a < 256) → (∀ a ∈ l2, a < 256) →
    l1.length = l2.length → bval l1 = bval l2 → l1 = l2
  | [], [], _, _, _, _ => rfl
  | a :: t1, b :: t2, h1, h2, hlen, hv => by
    have ha : a < 256 := h1 a (by simp)
    have hb : b < 256 := h2 b (by simp)
    simp only [bval] at hv
    have hab : a = b ∧ bval t1 = bval t2 := by omega
    have ht : t1 = t2 :=
      bval_inj t1 t2 (fun x hx => h1 x (by simp [hx])) (fun x hx => h2 x (by simp [hx]))
        (by simpa using hlen) hab.2
    rw [hab.1, ht]

theorem encL_inj {l1 l2 : List Nat} (h1 : ∀ a ∈ l1, a < 256) (h2 : ∀ a ∈ l2, a < 256)
    (he : encL l1 = encL l2) : l1 = l2 := by
  rw [encL, encL, Nat.pair_eq_pair] at he
  exact bval_inj l1 l2 h1 h2 he.1 he.2

theorem sha256M_length (data : List Nat) : (sha256M data).length = 32 := by
  simp [sha256M, le_length]

theorem sha256M_bytes_lt (data : List Nat) : ∀ a ∈ sha256M data, a < 256 :=
  le_bytes_lt

/-! ### Credential processing -/

theorem processCredentials_length (c : Creds) (salt : List Nat) :
    (processCredentials c salt).length = 32 := by
  simp [processCredentials, processCredentialsFull, argon2M]

theorem processCredentials_eq_combined (c : Creds) (salt : List Nat) :
    processCredentials c salt = argon2M (combinedCreds c) salt := by
  cases hk : c.keyfile <;>
    simp [processCredentials, processCredentialsFull, combinedCreds, hk]

theorem bval_replicate_zero (n : Nat) : bval (List.replicate n 0) = 0 := by
  induction n with
  | zero => rfl
  | succ n ih => simp [List.replicate_succ, bval, ih]

theorem encL_argon2M (c s : List Nat) :
    encL (argon2M c s) = Nat.pair 32 (Nat.pair (encL c) (encL s)) := by
  simp [encL, argon2M, bval, bval_replicate_zero]

theorem argon2M_ne {c1 c2 s : List Nat} (h1 : ∀ a ∈ c1, a < 256) (h2 : ∀ a ∈ c2, a < 256)
    (hne : c1 ≠ c2) : encL (argon2M c1 s) ≠ encL (argon2M c2 s) := by
  rw [encL_argon2M, encL_argon2M]
  intro he
  rw [Nat.pair_eq_pair, Nat.pair_eq_pair] at he
  exact hne (encL_inj h1 h2 he.2.1)

/-! ### Header codec round-trip -/

theorem serializeHeader_length (h : RstfHeader) :
    (serializeHeader h).length = 17 + h.original_name.length := by
  simp [serializeHeader, le_length]
  omega

theorem pow_256_8 : (256 : Nat) ^ 8 = 2 ^ 64 := by norm_num

theorem deserialize_serialize (h : RstfHeader)
    (hname : h.original_name.length < 2 ^ 64) (hsize : h.original_size < 2 ^ 64) :
    deserializeHeader (serializeHeader h) = some h := by
  obtain ⟨d, name, size⟩ := h
  simp only [serializeHeader, List.singleton_append, deserializeHeader]
  have hrest : (le 8 name.length ++ (name ++ le 8 size)).take 8 = le 8 name.length :=
    List.take_left' (le_length 8 name.length)
  have hrest2 : (le 8 name.length ++ (name ++ le 8 size)).drop 8 = name ++ le 8 size :=
    List.drop_left' (le_length 8 name.length)
  have hbn : bval (le 8 name.length) = name.length :=
    bval_le (by rw [pow_256_8]; exact hname)
  have hbs : bval (le 8 size) = size := bval_le (by rw [pow_256_8]; exact hsize)
  have hname8 : (name ++ le 8 size).take name.length = name := List.take_left' rfl
  have hdrop : (name ++ le 8 size).drop name.length = le 8 size := List.drop_left' rfl
  cases d <;>
    simp [List.append_assoc, hrest, hrest2, hbn, hbs, hname8, hdrop, le_length,
      List.take_of_length_le]

/-! ### Frame sealing and opening -/

theorem tagBytes_length (key nonce : List Nat) (c : Nat) (last : Bool) (body : List Nat) :
    (tagBytes key nonce c last body).length = 16 := by
  simp [tagBytes]

theorem sealFrame_length (key nonce : List Nat) (c : Nat) (last : Bool) (pt : List Nat) :
    (sealFrame key nonce c last pt).length = pt.length + 16 := by
  simp [sealFrame, tagBytes_length]

theorem openFrame_sealFrame (key nonce : List Nat) (c : Nat) (last : Bool) (pt : List Nat) :
    openFrame key nonce c last (sealFrame key nonce c last pt) = some pt := by
  have hlen := sealFrame_length key nonce c last pt
  have htake : (sealFrame key nonce c last pt).take pt.length = pt := by
    simpa [sealFrame] using @List.take_left' Nat pt (tagBytes key nonce c last pt) pt.length rfl
  have hdrop : (sealFrame key nonce c last pt).drop pt.length =
      tagBytes key nonce c last pt := by
    simpa [sealFrame] using @List.drop_left' Nat pt (tagBytes key nonce c last pt) pt.length rfl
  simp [openFrame, hlen, htake, hdrop]

theorem openFrame_wrong_key {key1 key2 : List Nat} (nonce : List Nat) {c c' : Nat}
    {last last' : Bool} (pt : List Nat) (hk : encL key1 ≠ encL key2) :
    openFrame key2 nonce c last (sealFrame key1 nonce c' last' pt) = none := by
  have hlen := sealFrame_length key1 nonce c' last' pt
  have htake : (sealFrame key1 nonce c' last' pt).take pt.length = pt := by
    simpa [sealFrame] using @List.take_left' Nat pt (tagBytes key1 nonce c' last' pt) pt.length rfl
  have hdrop : (sealFrame key1 nonce c' last' pt).drop pt.length =
      tagBytes key1 nonce c' last' pt := by
    simpa [sealFrame] using @List.drop_left' Nat pt (tagBytes key1 nonce c' last' pt) pt.length rfl
  have hne : tagBytes key1 nonce c' last' pt ≠ tagBytes key2 nonce c last pt := by
    intro he
    exact hk (by simpa [tagBytes] using congrArg (fun l => l.headI) he)
  simp [openFrame, hlen, htake, hdrop, hne]

theorem sealFrame_not_lastFlagged (key nonce : List Nat) (c : Nat) (pt : List Nat) :
    isLastFlaggedB (sealFrame key nonce c false pt) = false := by
  have hdrop : (sealFrame key nonce c false pt).drop
      ((sealFrame key nonce c false pt).length - 16) = tagBytes key nonce c false pt := by
    rw [sealFrame_length]
    simpa [sealFrame] using @List.drop_left' Nat pt (tagBytes key nonce c false pt) pt.length rfl
  simp [isLastFlaggedB, hdrop, tagBytes]

/-! ### Chunking a byte stream -/

theorem CHUNK_SIZE_pos : 0 < CHUNK_SIZE := by norm_num [CHUNK_SIZE]

theorem fullChunks_short {l : List Nat} (h : l.length < CHUNK_SIZE) : fullChunks l = [] := by
  simp [fullChunks, Nat.div_eq_of_lt h]

theorem remChunk_short {l : List Nat} (h : l.length < CHUNK_SIZE) : remChunk l = l := by
  simp [remChunk, Nat.div_eq_of_lt h]

theorem numFullChunks_short {l : List Nat} (h : l.length < CHUNK_SIZE) :
    numFullChunks l = 0 := Nat.div_eq_of_lt h

theorem numFullChunks_step {l : List Nat} (h : CHUNK_SIZE ≤ l.length) :
    numFullChunks l = numFullChunks (l.drop CHUNK_SIZE) + 1 := by
  simp only [numFullChunks, List.length_drop, CHUNK_SIZE]
  simp only [CHUNK_SIZE] at h
  omega

theorem fullChunks_step {l : List Nat} (h : CHUNK_SIZE ≤ l.length) :
    fullChunks l = l.take CHUNK_SIZE :: fullChunks (l.drop CHUNK_SIZE) := by
  have hq : l.length / CHUNK_SIZE = (l.drop CHUNK_SIZE).length / CHUNK_SIZE + 1 := by
    have h2 : (64 * 1024 : Nat) ≤ l.length := h
    simp only [List.length_drop, CHUNK_SIZE]
    omega
  simp only [fullChunks, hq, List.range_succ_eq_map, List.map_cons, List.map_map]
  refine congrArg₂ List.cons (by simp) (List.map_congr_left fun i _ => ?_)
  simp only [Function.comp_apply, List.drop_drop]
  rw [Nat.succ_mul, Nat.add_comm (i * CHUNK_SIZE)]

theorem remChunk_step {l : List Nat} (h : CHUNK_SIZE ≤ l.length) :
    remChunk l = remChunk (l.drop CHUNK_SIZE) := by
  have hq : l.length / CHUNK_SIZE = (l.drop CHUNK_SIZE).length / CHUNK_SIZE + 1 := by
    have h2 : (64 * 1024 : Nat) ≤ l.length := h
    simp only [List.length_drop, CHUNK_SIZE]
    omega
  simp only [remChunk, hq, List.length_drop, List.drop_drop]
  ring_nf

theorem remChunk_length (l : List Nat) : (remChunk l).length = l.length % CHUNK_SIZE := by
  simp only [remChunk, List.length_drop, CHUNK_SIZE]
  omega

theorem remChunk_length_lt (l : List Nat) : (remChunk l).length < CHUNK_SIZE := by
  rw [remChunk_length]
  exact Nat.mod_lt _ CHUNK_SIZE_pos

theorem length_fullChunks (l : List Nat) : (fullChunks l).length = numFullChunks l := by
  simp [fullChunks, numFullChunks]

theorem fullChunks_mem_length {l : List Nat} : ∀ p ∈ fullChunks l, p.length = CHUNK_SIZE := by
  intro p hp
  simp only [fullChunks, List.mem_map, List.mem_range] at hp
  obtain ⟨i, hi, rfl⟩ := hp
  have hmul : (i + 1) * CHUNK_SIZE ≤ l.length :=
    (Nat.le_div_iff_mul_le CHUNK_SIZE_pos).mp hi
  simp only [List.length_take, List.length_drop, CHUNK_SIZE] at hmul ⊢
  omega

theorem chunkPlains_length (pt : List Nat) :
    (chunkPlains pt).length = numFullChunks pt + 1 := by
  simp [chunkPlains, length_fullChunks]

theorem chunkPlains_flatten_aux :
    ∀ (n : Nat) (l : List Nat), l.length ≤ n → (chunkPlains l).flatten = l := by
  intro n
  induction n with
  | zero =>
    intro l hl
    have h0 : l.length < CHUNK_SIZE := by have := CHUNK_SIZE_pos; omega
    simp [chunkPlains, fullChunks_short h0, remChunk_short h0]
  | succ n ih =>
    intro l hl
    by_cases h : l.length < CHUNK_SIZE
    · simp [chunkPlains, fullChunks_short h, remChunk_short h]
    · push_neg at h
      have hstep : chunkPlains l = l.take CHUNK_SIZE :: chunkPlains (l.drop CHUNK_SIZE) := by
        simp only [chunkPlains, fullChunks_step h, remChunk_step h, List.cons_append]
      rw [hstep, List.flatten_cons,
        ih (l.drop CHUNK_SIZE) (by simp only [List.length_drop]
                                   have := CHUNK_SIZE_pos; omega),
        List.take_append_drop]

theorem chunkPlains_flatten (l : List Nat) : (chunkPlains l).flatten = l :=
  chunkPlains_flatten_aux l.length l le_rfl

theorem chunks_append_aux :
    ∀ (n : Nat) (x y : List Nat), x.length ≤ n →
      fullChunks (x ++ y) = fullChunks x ++ fullChunks (remChunk x ++ y) ∧
      remChunk (x ++ y) = remChunk (remChunk x ++ y) := by
  intro n
  induction n with
  | zero =>
    intro x y hx
    have h0 : x.length < CHUNK_SIZE := by have := CHUNK_SIZE_pos; omega
    rw [fullChunks_short h0, remChunk_short h0]
    simp
  | succ n ih =>
    intro x y hx
    by_cases h : x.length < CHUNK_SIZE
    · rw [fullChunks_short h, remChunk_short h]
      simp
    · push_neg at h
      have hxy : CHUNK_SIZE ≤ (x ++ y).length := by
        simp only [List.length_append]; omega
      have htake : (x ++ y).take CHUNK_SIZE = x.take CHUNK_SIZE :=
        List.take_append_of_le_length h
      have hdrop : (x ++ y).drop CHUNK_SIZE = x.drop CHUNK_SIZE ++ y :=
        List.drop_append_of_le_length h
      have hd : (x.drop CHUNK_SIZE).length ≤ n := by
        simp only [List.length_drop]; have := CHUNK_SIZE_pos; omega
      obtain ⟨ih1, ih2⟩ := ih (x.drop CHUNK_SIZE) y hd
      constructor
      · rw [fullChunks_step hxy, htake, hdrop, ih1, fullChunks_step h,
          remChunk_step h, List.cons_append]
      · rw [remChunk_step hxy, hdrop, ih2, remChunk_step h]

theorem fullChunks_append (x y : List Nat) :
    fullChunks (x ++ y) = fullChunks x ++ fullChunks (remChunk x ++ y) :=
  (chunks_append_aux x.length x y le_rfl).1

theorem remChunk_append (x y : List Nat) :
    remChunk (x ++ y) = remChunk (remChunk x ++ y) :=
  (chunks_append_aux x.length x y le_rfl).2

theorem numFullChunks_append (x y : List Nat) :
    numFullChunks (x ++ y) = numFullChunks x + numFullChunks (remChunk x ++ y) := by
  have h := congrArg List.length (fullChunks_append x y)
  simpa [length_fullChunks] using h

/-! ### Sealed frame ranges -/

theorem sealRange_length (key nonce : List Nat) (c : Nat) (ps : List (List Nat)) :
    (sealRange key nonce c ps).length = ps.length := by
  induction ps generalizing c with
  | nil => rfl
  | cons p ps ih => simp [sealRange, ih]

theorem sealRange_append (key nonce : List Nat) (c : Nat) (ps qs : List (List Nat)) :
    sealRange key nonce c (ps ++ qs) =
      sealRange key nonce c ps ++ sealRange key nonce (c + ps.length) qs := by
  induction ps generalizing c with
  | nil => simp [sealRange]
  | cons p ps ih =>
    simp only [List.cons_append, sealRange, List.length_cons, List.append_eq]
    rw [ih]
    have hc : c + 1 + ps.length = c + (ps.length + 1) := by omega
    rw [hc]

theorem sealRange_drop (key nonce : List Nat) (c j : Nat) (ps : List (List Nat)) :
    (sealRange key nonce c ps).drop j = sealRange key nonce (c + j) (ps.drop j) := by
  induction ps generalizing c j with
  | nil => simp [sealRange]
  | cons p ps ih =>
    cases j with
    | zero => simp
    | succ j =>
      simp only [sealRange, List.drop_succ_cons, ih]
      ring_nf

theorem sealRange_not_lastFlagged (key nonce : List Nat) (c : Nat) (ps : List (List Nat)) :
    ∀ f ∈ sealRange key nonce c ps, isLastFlaggedB f = false := by
  induction ps generalizing c with
  | nil => simp [sealRange]
  | cons p ps ih =>
    intro f hf
    rcases List.mem_cons.mp hf with h | h
    · rw [h]; exact sealFrame_not_lastFlagged key nonce c p
    · exact ih (c + 1) f h

theorem sealRange_flatten_length (key nonce : List Nat) (c : Nat) (ps : List (List Nat)) :
    ((sealRange key nonce c ps).flatten).length = ps.flatten.length + 16 * ps.length := by
  induction ps generalizing c with
  | nil => simp [sealRange]
  | cons p ps ih =>
    simp only [sealRange, List.flatten_cons, List.length_append, ih, sealFrame_length,
      List.length_cons]
    ring

theorem chunkFrames_drop (key nonce pt : List Nat) (j : Nat) :
    (chunkFrames key nonce pt).drop j = sealRange key nonce j ((chunkPlains pt).drop j) := by
  simpa using sealRange_drop key nonce 0 j (chunkPlains pt)

theorem chunkFrames_length (key nonce pt : List Nat) :
    (chunkFrames key nonce pt).length = numFullChunks pt + 1 := by
  simp [chunkFrames, sealRange_length, chunkPlains_length]

/-! ### The sealer characterised -/

theorem flushChunk_true_eq {w : EncryptedWriter} (hc : w.counter < COUNTER_MAX) :
    flushChunk true w = some
      { w with
          frames := w.frames ++ [sealFrame w.key w.nonce w.counter false w.buffer]
          counter := w.counter + 1
          buffer := [] } := by
  simp [flushChunk, hc]

theorem flushChunk_false_full {w : EncryptedWriter} (hb : w.buffer ≠ [])
    (hc : w.counter < COUNTER_MAX) :
    flushChunk false w = some
      { w with
          frames := w.frames ++ [sealFrame w.key w.nonce w.counter false w.buffer]
          counter := w.counter + 1
          buffer := [] } := by
  simp [flushChunk, hb, hc]

theorem numFullChunks_pos {l : List Nat} (h : CHUNK_SIZE ≤ l.length) :
    1 ≤ numFullChunks l :=
  (Nat.le_div_iff_mul_le CHUNK_SIZE_pos).mpr (by omega)

theorem numFullChunks_mono (x y : List Nat) :
    numFullChunks x ≤ numFullChunks (x ++ y) :=
  Nat.div_le_div_right (by simp)

theorem writeLoop_nil (fuel : Nat) (w : EncryptedWriter) : writeLoop fuel w [] = some w := by
  cases fuel <;> rfl

theorem writeLoop_spec (fuel : Nat) :
    ∀ (data : List Nat) (w : EncryptedWriter),
      data.length ≤ fuel → w.buffer.length < CHUNK_SIZE →
      w.counter + numFullChunks (w.buffer ++ data) ≤ COUNTER_MAX →
      writeLoop fuel w data = some
        { w with
            counter := w.counter + numFullChunks (w.buffer ++ data)
            buffer := remChunk (w.buffer ++ data)
            frames := w.frames ++ sealRange w.key w.nonce w.counter
              (fullChunks (w.buffer ++ data)) } := by
  induction fuel with
  | zero =>
    intro data w hf hb _
    cases data with
    | nil =>
      simp [writeLoop, numFullChunks_short hb, remChunk_short hb, fullChunks_short hb,
        sealRange]
    | cons d ds => simp at hf
  | succ fuel ih =>
    intro data w hf hb hcnt
    cases data with
    | nil =>
      simp [writeLoop, numFullChunks_short hb, remChunk_short hb, fullChunks_short hb,
        sealRange]
    | cons d ds =>
      have hcpos : 0 < min (CHUNK_SIZE - w.buffer.length) (d :: ds).length := by
        simp only [List.length_cons]
        omega
      simp only [writeLoop]
      rw [if_neg (by omega)]
      by_cases hfull :
          (w.buffer ++ (d :: ds).take (min (CHUNK_SIZE - w.buffer.length) (d :: ds).length)).length
            = CHUNK_SIZE
      · -- the buffer fills: one non-final frame is sealed, then the loop continues
        rw [if_pos hfull]
        have hclen : ((d :: ds).take (min (CHUNK_SIZE - w.buffer.length) (d :: ds).length)).length
            = min (CHUNK_SIZE - w.buffer.length) (d :: ds).length := by
          simp
        have hc : min (CHUNK_SIZE - w.buffer.length) (d :: ds).length
            = CHUNK_SIZE - w.buffer.length := by
          simp only [List.length_append] at hfull
          omega
        have hsplit : w.buffer ++ (d :: ds) =
            (w.buffer ++ (d :: ds).take (min (CHUNK_SIZE - w.buffer.length) (d :: ds).length))
              ++ (d :: ds).drop (min (CHUNK_SIZE - w.buffer.length) (d :: ds).length) := by
          rw [List.append_assoc, List.take_append_drop]
        have hge : CHUNK_SIZE ≤ (w.buffer ++ (d :: ds)).length := by
          rw [hsplit, List.length_append, hfull]
          omega
        have hdropCH : (w.buffer ++ (d :: ds)).drop CHUNK_SIZE =
            (d :: ds).drop (min (CHUNK_SIZE - w.buffer.length) (d :: ds).length) := by
          rw [hsplit]
          exact List.drop_left' hfull
        have htakeCH : (w.buffer ++ (d :: ds)).take CHUNK_SIZE =
            w.buffer ++ (d :: ds).take (min (CHUNK_SIZE - w.buffer.length) (d :: ds).length) := by
          rw [hsplit]
          exact List.take_left' hfull
        have hnf : numFullChunks (w.buffer ++ (d :: ds)) =
            numFullChunks ((d :: ds).drop (min (CHUNK_SIZE - w.buffer.length) (d :: ds).length))
              + 1 := by
          rw [numFullChunks_step hge, hdropCH]
        have hwc : w.counter < COUNTER_MAX := by
          have := numFullChunks_pos hge
          omega
        have hbne : w.buffer ++ (d :: ds).take (min (CHUNK_SIZE - w.buffer.length)
            (d :: ds).length) ≠ [] := by
          intro hnil
          rw [hnil] at hfull
          simp only [List.length_nil] at hfull
          have := CHUNK_SIZE_pos
          omega
        have hflush := @flushChunk_false_full
          { w with buffer := w.buffer ++ (d :: ds).take (min (CHUNK_SIZE - w.buffer.length)
              (d :: ds).length) } hbne hwc
        rw [hflush, Option.some_bind]
        have hih := ih ((d :: ds).drop (min (CHUNK_SIZE - w.buffer.length) (d :: ds).length))
          { key := w.key, nonce := w.nonce, counter := w.counter + 1, buffer := []
            frames := w.frames ++ [sealFrame w.key w.nonce w.counter false
              (w.buffer ++ (d :: ds).take (min (CHUNK_SIZE - w.buffer.length)
                (d :: ds).length))] }
          (by simp only [List.length_drop]
              simp only [List.length_cons] at hf ⊢
              omega)
          (by simpa using CHUNK_SIZE_pos)
          (by simp only [List.nil_append, hnf] at hcnt ⊢
              omega)
        rw [hih]
        simp only [List.nil_append, Option.some.injEq, EncryptedWriter.mk.injEq, hnf]
        refine ⟨trivial, trivial, by omega, ?_, ?_⟩
        · rw [remChunk_step hge, hdropCH]
        · rw [fullChunks_step hge, htakeCH, hdropCH, sealRange, List.append_assoc,
            List.cons_append, List.nil_append]
      · -- the buffer does not fill: all the data fits and the loop terminates
        rw [if_neg hfull]
        have hc : min (CHUNK_SIZE - w.buffer.length) (d :: ds).length = (d :: ds).length := by
          simp only [List.length_append, List.length_take] at hfull ⊢
          omega
        have htake : (d :: ds).take (min (CHUNK_SIZE - w.buffer.length) (d :: ds).length)
            = d :: ds := by
          rw [hc]
          exact List.take_length _
        have hdrop : (d :: ds).drop (min (CHUNK_SIZE - w.buffer.length) (d :: ds).length)
            = [] := by
          rw [hc]
          exact List.drop_length _
        have hshort : (w.buffer ++ (d :: ds)).length < CHUNK_SIZE := by
          rw [htake] at hfull
          have h1 := Nat.min_le_left (CHUNK_SIZE - w.buffer.length) (d :: ds).length
          simp only [List.length_append, List.length_cons] at hfull ⊢
          simp only [List.length_cons] at hc
          omega
        rw [htake, hdrop, Option.some_bind, writeLoop_nil]
        simp [numFullChunks_short hshort, remChunk_short hshort, fullChunks_short hshort,
          sealRange]

theorem writeBytes_spec {w : EncryptedWriter} {data : List Nat}
    (hb : w.buffer.length < CHUNK_SIZE)
    (hcnt : w.counter + numFullChunks (w.buffer ++ data) ≤ COUNTER_MAX) :
    writeBytes w data = some
      { w with
          counter := w.counter + numFullChunks (w.buffer ++ data)
          buffer := remChunk (w.buffer ++ data)
          frames := w.frames ++ sealRange w.key w.nonce w.counter
            (fullChunks (w.buffer ++ data)) } :=
  writeLoop_spec data.length data w le_rfl hb hcnt

/-! ### pack characterised -/

theorem sealRange_singleton (key nonce : List Nat) (c : Nat) (p : List Nat) :
    sealRange key nonce c [p] = [sealFrame key nonce c false p] := rfl

theorem chunkFrames_eq (key nonce pt : List Nat) :
    chunkFrames key nonce pt =
      sealRange key nonce 0 (fullChunks pt) ++
        [sealFrame key nonce (numFullChunks pt) false (remChunk pt)] := by
  rw [chunkFrames, chunkPlains, sealRange_append, length_fullChunks, Nat.zero_add,
    sealRange_singleton]

theorem packWriter_spec (comp : List Nat → List Nat) (creds : Creds)
    (salt nonce name B : List Nat)
    (hcnt : numFullChunks (le 4 (serializeHeader ⟨false, name, B.length⟩).length
        ++ (serializeHeader ⟨false, name, B.length⟩ ++ comp B)) + 1 ≤ COUNTER_MAX) :
    packWriter comp creds salt nonce name B = some
      { key := processCredentials creds salt
        nonce := nonce
        counter := numFullChunks (le 4 (serializeHeader ⟨false, name, B.length⟩).length
          ++ (serializeHeader ⟨false, name, B.length⟩ ++ comp B)) + 1
        buffer := []
        frames := chunkFrames (processCredentials creds salt) nonce
          (le 4 (serializeHeader ⟨false, name, B.length⟩).length
            ++ (serializeHeader ⟨false, name, B.length⟩ ++ comp B)) } := by
  simp only [packWriter]
  set k := processCredentials creds salt with hk
  set hb := serializeHeader { is_dir := false, original_name := name, original_size := B.length }
    with hhb
  set x1 := le 4 hb.length with hx1
  have hptassoc : x1 ++ (hb ++ comp B) = (x1 ++ hb) ++ comp B :=
    (List.append_assoc x1 hb (comp B)).symm
  have hmono1 : numFullChunks x1 ≤ numFullChunks (x1 ++ (hb ++ comp B)) :=
    numFullChunks_mono x1 (hb ++ comp B)
  have hmono2 : numFullChunks (x1 ++ hb) ≤ numFullChunks (x1 ++ (hb ++ comp B)) := by
    rw [hptassoc]
    exact numFullChunks_mono (x1 ++ hb) (comp B)
  -- first write: the 4-byte header length
  have h1 := @writeBytes_spec (EncryptedWriter.init k nonce) x1
      (by simp [EncryptedWriter.init, CHUNK_SIZE_pos])
      (by simp only [EncryptedWriter.init, List.nil_append]
          omega)
  rw [h1]
  simp only [Option.some_bind, EncryptedWriter.init, List.nil_append, Nat.zero_add]
  -- second write: the serialized header
  have h2 := @writeBytes_spec
      { key := k, nonce := nonce, counter := numFullChunks x1, buffer := remChunk x1
        frames := sealRange k nonce 0 (fullChunks x1) } hb
      (remChunk_length_lt x1)
      (by simp only
          rw [← numFullChunks_append x1 hb]
          omega)
  have h2' : writeBytes
      { key := k, nonce := nonce, counter := numFullChunks x1, buffer := remChunk x1
        frames := sealRange k nonce 0 (fullChunks x1) } hb = some
      { key := k, nonce := nonce, counter := numFullChunks (x1 ++ hb)
        buffer := remChunk (x1 ++ hb)
        frames := sealRange k nonce 0 (fullChunks (x1 ++ hb)) } := by
    rw [h2]
    simp only [Option.some.injEq, EncryptedWriter.mk.injEq]
    refine ⟨trivial, trivial, (numFullChunks_append x1 hb).symm,
      (remChunk_append x1 hb).symm, ?_⟩
    rw [fullChunks_append x1 hb, sealRange_append, length_fullChunks, Nat.zero_add]
  rw [h2']
  simp only [Option.some_bind]
  -- third write: the compressed payload
  have h3 := @writeBytes_spec
      { key := k, nonce := nonce, counter := numFullChunks (x1 ++ hb)
        buffer := remChunk (x1 ++ hb)
        frames := sealRange k nonce 0 (fullChunks (x1 ++ hb)) } (comp B)
      (remChunk_length_lt (x1 ++ hb))
      (by simp only
          rw [← numFullChunks_append (x1 ++ hb) (comp B), ← hptassoc]
          omega)
  have h3' : writeBytes
      { key := k, nonce := nonce, counter := numFullChunks (x1 ++ hb)
        buffer := remChunk (x1 ++ hb)
        frames := sealRange k nonce 0 (fullChunks (x1 ++ hb)) } (comp B) = some
      { key := k, nonce := nonce, counter := numFullChunks (x1 ++ (hb ++ comp B))
        buffer := remChunk (x1 ++ (hb ++ comp B))
        frames := sealRange k nonce 0 (fullChunks (x1 ++ (hb ++ comp B))) } := by
    rw [h3]
    simp only [Option.some.injEq, EncryptedWriter.mk.injEq]
    refine ⟨trivial, trivial, ?_, ?_, ?_⟩
    · rw [hptassoc, numFullChunks_append (x1 ++ hb) (comp B)]
    · rw [hptassoc, remChunk_append (x1 ++ hb) (comp B)]
    · rw [hptassoc, fullChunks_append (x1 ++ hb) (comp B), sealRange_append,
        length_fullChunks, Nat.zero_add]
  rw [h3']
  simp only [Option.some_bind]
  -- closing the sealer through Drop seals the remainder as the final frame
  have hflush := @flushChunk_true_eq
      { key := k, nonce := nonce, counter := numFullChunks (x1 ++ (hb ++ comp B))
        buffer := remChunk (x1 ++ (hb ++ comp B))
        frames := sealRange k nonce 0 (fullChunks (x1 ++ (hb ++ comp B))) }
      (by simp only; omega)
  simp only [dropWriter, hflush, Option.getD_some, Option.some.injEq,
    EncryptedWriter.mk.injEq]
  refine ⟨trivial, trivial, trivial, trivial, ?_⟩
  rw [chunkFrames_eq]

theorem pack_spec (comp : List Nat → List Nat) (creds : Creds)
    (salt nonce name B : List Nat)
    (hcnt : numFullChunks (le 4 (serializeHeader ⟨false, name, B.length⟩).length
        ++ (serializeHeader ⟨false, name, B.length⟩ ++ comp B)) + 1 ≤ COUNTER_MAX) :
    pack comp creds salt nonce name B = some (salt ++ nonce ++
      sealedStream (processCredentials creds salt) nonce
        (le 4 (serializeHeader ⟨false, name, B.length⟩).length
          ++ (serializeHeader ⟨false, name, B.length⟩ ++ comp B))) := by
  rw [pack, packWriter_spec comp creds salt nonce name B hcnt]
  rfl

/-! ### The opener characterised -/

theorem ebind_ok {ε α β : Type} (a : α) (f : α → Except ε β) :
    (Except.ok a : Except ε α).bind f = f a := rfl

theorem ebind_error {ε α β : Type} (e : ε) (f : α → Except ε β) :
    (Except.error e : Except ε α).bind f = .error e := rfl

theorem emapError_ok {ε ε' α : Type} (g : ε → ε') (a : α) :
    Except.mapError g (Except.ok a : Except ε α) = .ok a := rfl

theorem emapError_error {ε ε' α : Type} (g : ε → ε') (e : ε) :
    Except.mapError g (Except.error e : Except ε α) = .error (g e) := rfl

theorem oelim_some {α β : Type} (a : α) (b : β) (f : α → β) :
    (some a).elim b f = f a := rfl

theorem oelim_none {α β : Type} (b : β) (f : α → β) :
    (none : Option α).elim b f = b := rfl

theorem reader_init_eq (key nonce pt : List Nat) :
    DecryptedReader.init (sealedStream key nonce pt) key nonce = mkReader key nonce pt 0 0 := by
  simp [DecryptedReader.init, mkReader, sealedStream, plainBefore]

theorem chunkPlains_getD_full {pt : List Nat} {j : Nat} (hj : j < numFullChunks pt) :
    ((chunkPlains pt).getD j []).length = CHUNK_SIZE := by
  have hjl : j < (fullChunks pt).length := by rw [length_fullChunks]; exact hj
  rw [chunkPlains, List.getD_append _ _ _ _ hjl, List.getD_eq_getElem _ _ hjl]
  exact fullChunks_mem_length _ (List.getElem_mem _)

theorem chunkPlains_getD_last (pt : List Nat) :
    (chunkPlains pt).getD (numFullChunks pt) [] = remChunk pt := by
  have hl : (fullChunks pt).length = numFullChunks pt := length_fullChunks pt
  rw [chunkPlains, List.getD_append_right _ _ _ _ (by omega), hl]
  simp

theorem chunkPlains_getD_le (pt : List Nat) (j : Nat) :
    ((chunkPlains pt).getD j []).length ≤ CHUNK_SIZE := by
  rcases Nat.lt_trichotomy j (numFullChunks pt) with h | h | h
  · exact le_of_eq (chunkPlains_getD_full h)
  · rw [h, chunkPlains_getD_last]
    exact le_of_lt (remChunk_length_lt pt)
  · rw [List.getD_eq_default]
    · simp
    · rw [chunkPlains_length]; omega

theorem plainBefore_succ (pt : List Nat) (j : Nat) :
    plainBefore pt (j + 1) = (chunkPlains pt).getD j [] := by
  simp [plainBefore]

theorem chunkFrames_drop_cons {key nonce pt : List Nat} {j : Nat}
    (hj : j ≤ numFullChunks pt) :
    (chunkFrames key nonce pt).drop j =
      sealFrame key nonce j false ((chunkPlains pt).getD j []) ::
        (chunkFrames key nonce pt).drop (j + 1) := by
  have hjlen : j < (chunkPlains pt).length := by rw [chunkPlains_length]; omega
  rw [chunkFrames_drop, chunkFrames_drop, List.drop_eq_getElem_cons hjlen, sealRange,
    List.getD_eq_getElem _ _ hjlen]

theorem chunkFrames_drop_past (key nonce pt : List Nat) :
    (chunkFrames key nonce pt).drop (numFullChunks pt + 1) = [] := by
  apply List.drop_eq_nil_of_le
  rw [chunkFrames_length]

theorem readStep_sticky (r : DecryptedReader) (n : Nat) (he : r.eof = true)
    (ho : r.buffer.length ≤ r.offset) : readStep r n = .ok ([], r) := by
  simp [readStep, ho, he]

theorem readStep_serve {key nonce pt : List Nat} {j o : Nat} (n : Nat)
    (ho : o < (plainBefore pt j).length) :
    readStep (mkReader key nonce pt j o) n =
      .ok (((plainBefore pt j).drop o).take (min ((plainBefore pt j).length - o) n),
           mkReader key nonce pt j (o + min ((plainBefore pt j).length - o) n)) := by
  rw [readStep, if_neg (by simp only [mkReader]; omega)]
  simp [serveFrom, mkReader]

theorem readStep_refill {key nonce pt : List Nat} {j : Nat} (o n : Nat)
    (ho : (plainBefore pt j).length ≤ o)
    (hj : j ≤ numFullChunks pt)
    (hcm : numFullChunks pt < COUNTER_MAX) :
    readStep (mkReader key nonce pt j o) n =
      .ok (((chunkPlains pt).getD j []).take (min ((chunkPlains pt).getD j []).length n),
           mkReader key nonce pt (j + 1) (min ((chunkPlains pt).getD j []).length n)) := by
  have hcons := @chunkFrames_drop_cons key nonce pt j hj
  have hinner : ((chunkFrames key nonce pt).drop j).flatten =
      sealFrame key nonce j false ((chunkPlains pt).getD j []) ++
        ((chunkFrames key nonce pt).drop (j + 1)).flatten := by
    rw [hcons, List.flatten_cons]
  have hflen : (sealFrame key nonce j false ((chunkPlains pt).getD j [])).length =
      ((chunkPlains pt).getD j []).length + 16 := sealFrame_length _ _ _ _ _
  -- the inner read loop gathers exactly this frame's bytes
  have hM : min ENC_CHUNK_SIZE (((chunkFrames key nonce pt).drop j).flatten).length =
      (sealFrame key nonce j false ((chunkPlains pt).getD j [])).length := by
    rw [hinner, List.length_append, hflen]
    rcases Nat.lt_or_ge j (numFullChunks pt) with hlt | hge
    · have hfull := chunkPlains_getD_full hlt
      have hnext : ENC_CHUNK_SIZE ≤
          (((chunkFrames key nonce pt).drop (j + 1)).flatten).length
            + (((chunkPlains pt).getD j []).length + 16) := by
        rw [hfull, ENC_CHUNK_SIZE]
        omega
      rw [hfull, ENC_CHUNK_SIZE]
      omega
    · have hj2 : j = numFullChunks pt := by omega
      have hpast : (chunkFrames key nonce pt).drop (j + 1) = [] := by
        rw [hj2]
        exact chunkFrames_drop_past key nonce pt
      have hlast : ((chunkPlains pt).getD j []).length < CHUNK_SIZE := by
        rw [hj2, chunkPlains_getD_last]
        exact remChunk_length_lt pt
      rw [hpast]
      simp only [List.flatten_nil, List.length_nil, Nat.zero_add]
      rw [ENC_CHUNK_SIZE]
      omega
  have hM0 : min ENC_CHUNK_SIZE (((chunkFrames key nonce pt).drop j).flatten).length ≠ 0 := by
    rw [hM, hflen]
    omega
  have htakeF : (((chunkFrames key nonce pt).drop j).flatten).take
      (min ENC_CHUNK_SIZE (((chunkFrames key nonce pt).drop j).flatten).length) =
      sealFrame key nonce j false ((chunkPlains pt).getD j []) := by
    rw [hM, hinner]
    exact List.take_left' rfl
  have hdropF : (((chunkFrames key nonce pt).drop j).flatten).drop
      (min ENC_CHUNK_SIZE (((chunkFrames key nonce pt).drop j).flatten).length) =
      ((chunkFrames key nonce pt).drop (j + 1)).flatten := by
    rw [hM, hinner]
    exact List.drop_left' rfl
  have heof_eq : decide (min ENC_CHUNK_SIZE (((chunkFrames key nonce pt).drop j).flatten).length
      < ENC_CHUNK_SIZE) = (j + 1 == numFullChunks pt + 1) := by
    rw [hM, hflen]
    rcases Nat.lt_or_ge j (numFullChunks pt) with hlt | hge
    · have hfull := chunkPlains_getD_full hlt
      have h2 : ¬ (((chunkPlains pt).getD j []).length + 16 < ENC_CHUNK_SIZE) := by
        rw [hfull, ENC_CHUNK_SIZE]
        omega
      have h3 : (j + 1 == numFullChunks pt + 1) = false := by
        rw [beq_eq_false_iff_ne]
        omega
      rw [decide_eq_false h2, h3]
    · have hj2 : j = numFullChunks pt := by omega
      have h2 : ((chunkPlains pt).getD j []).length + 16 < ENC_CHUNK_SIZE := by
        rw [hj2, chunkPlains_getD_last, ENC_CHUNK_SIZE]
        have := remChunk_length_lt pt
        omega
      have h3 : (j + 1 == numFullChunks pt + 1) = true := by
        rw [beq_iff_eq, hj2]
      rw [decide_eq_true h2, h3]
  have hopen : openFrame key nonce j false
      (sealFrame key nonce j false ((chunkPlains pt).getD j [])) =
      some ((chunkPlains pt).getD j []) := openFrame_sealFrame _ _ _ _ _
  have heof_ne : ¬ ((j == numFullChunks pt + 1) = true) := by
    rw [beq_iff_eq]
    omega
  simp only [readStep, mkReader]
  rw [if_pos ho, if_neg heof_ne, if_neg hM0, htakeF, hopen, oelim_some,
    if_pos (show j < COUNTER_MAX by omega)]
  simp only [serveFrom, hdropF, heof_eq, plainBefore_succ, Nat.sub_zero, List.drop_zero,
    Nat.zero_add]

/-! ### The remaining plaintext of a reader state -/

theorem chunkPlains_drop_cons {pt : List Nat} {j : Nat} (hj : j ≤ numFullChunks pt) :
    (chunkPlains pt).drop j = (chunkPlains pt).getD j [] :: (chunkPlains pt).drop (j + 1) := by
  have hjlen : j < (chunkPlains pt).length := by rw [chunkPlains_length]; omega
  rw [List.drop_eq_getElem_cons hjlen, List.getD_eq_getElem _ _ hjlen]

theorem chunkPlains_drop_past (pt : List Nat) :
    (chunkPlains pt).drop (numFullChunks pt + 1) = [] := by
  apply List.drop_eq_nil_of_le
  rw [chunkPlains_length]

theorem suffixAt_refill {pt : List Nat} {j o : Nat} (ho : (plainBefore pt j).length ≤ o)
    (hj : j ≤ numFullChunks pt) :
    suffixAt pt j o =
      (chunkPlains pt).getD j [] ++ ((chunkPlains pt).drop (j + 1)).flatten := by
  rw [suffixAt, List.drop_eq_nil_of_le ho, List.nil_append, chunkPlains_drop_cons hj,
    List.flatten_cons]

theorem suffixAt_empty {pt : List Nat} {o : Nat}
    (ho : (plainBefore pt (numFullChunks pt + 1)).length ≤ o) :
    suffixAt pt (numFullChunks pt + 1) o = [] := by
  rw [suffixAt, List.drop_eq_nil_of_le ho, chunkPlains_drop_past, List.nil_append,
    List.flatten_nil]

theorem suffixAt_succ (pt : List Nat) (j c : Nat) :
    suffixAt pt (j + 1) c =
      (((chunkPlains pt).getD j []).drop c) ++ ((chunkPlains pt).drop (j + 1)).flatten := by
  rw [suffixAt, plainBefore_succ]

theorem suffixAt_serve_take {pt : List Nat} {j o c : Nat}
    (hc : c ≤ (plainBefore pt j).length - o) :
    (suffixAt pt j o).take c = ((plainBefore pt j).drop o).take c := by
  rw [suffixAt, List.take_append_of_le_length (by simp only [List.length_drop]; omega)]

theorem suffixAt_serve_drop {pt : List Nat} {j o c : Nat}
    (hc : c ≤ (plainBefore pt j).length - o) :
    suffixAt pt j (o + c) = (suffixAt pt j o).drop c := by
  rw [suffixAt, suffixAt,
    List.drop_append_of_le_length (by simp only [List.length_drop]; omega),
    List.drop_drop]

theorem suffixAt_zero (pt : List Nat) : suffixAt pt 0 0 = pt := by
  rw [suffixAt]
  simp only [plainBefore, if_pos rfl, List.drop_nil, List.drop_zero, List.nil_append]
  exact chunkPlains_flatten pt

/-! ### The read loops over a sealed stream -/

theorem readExactLoop_spec (key nonce pt : List Nat) (hcm : numFullChunks pt < COUNTER_MAX) :
    ∀ (fuel nn j o : Nat),
      o ≤ (plainBefore pt j).length →
      j ≤ numFullChunks pt + 1 →
      nn ≤ (suffixAt pt j o).length →
      nn ≤ fuel →
      ∃ j2 o2,
        readExactLoop fuel (mkReader key nonce pt j o) nn =
          .ok ((suffixAt pt j o).take nn, mkReader key nonce pt j2 o2) ∧
        suffixAt pt j2 o2 = (suffixAt pt j o).drop nn ∧
        o2 ≤ (plainBefore pt j2).length ∧
        j2 ≤ numFullChunks pt + 1 := by
  intro fuel
  induction fuel with
  | zero =>
    intro nn j o ho hj hnn _
    have hz : nn = 0 := by omega
    subst hz
    exact ⟨j, o, by simp [readExactLoop], by simp, ho, hj⟩
  | succ fuel ih =>
    intro nn j o ho hj hnn hf
    cases nn with
    | zero => exact ⟨j, o, by simp [readExactLoop], by simp, ho, hj⟩
    | succ m =>
      rcases Nat.lt_or_ge o (plainBefore pt j).length with hserve | hrefill
      · -- some buffered plaintext is still unserved
        have hc1 : 1 ≤ min ((plainBefore pt j).length - o) (m + 1) := by omega
        have hcle : min ((plainBefore pt j).length - o) (m + 1)
            ≤ (plainBefore pt j).length - o := Nat.min_le_left _ _
        have hcm1 : min ((plainBefore pt j).length - o) (m + 1) ≤ m + 1 :=
          Nat.min_le_right _ _
        have hbs_len : (((plainBefore pt j).drop o).take
            (min ((plainBefore pt j).length - o) (m + 1))).length
            = min ((plainBefore pt j).length - o) (m + 1) := by
          simp only [List.length_take, List.length_drop]
          omega
        have hsd := @suffixAt_serve_drop pt j o _ hcle
        obtain ⟨j2, o2, hrec, hsfx, hi1, hi2⟩ := ih
          (m + 1 - min ((plainBefore pt j).length - o) (m + 1)) j
          (o + min ((plainBefore pt j).length - o) (m + 1))
          (by omega) hj
          (by rw [hsd, List.length_drop]; omega)
          (by omega)
        refine ⟨j2, o2, ?_, ?_, hi1, hi2⟩
        · simp only [readExactLoop]
          rw [readStep_serve (m + 1) hserve]
          simp only [ebind_ok, hbs_len]
          rw [if_neg (by omega), hrec]
          simp only [ebind_ok, Except.ok.injEq, Prod.mk.injEq]
          constructor
          · rw [hsd, ← suffixAt_serve_take hcle, ← List.take_add,
              Nat.add_sub_cancel' hcm1]
          · trivial
        · rw [hsfx, hsd, List.drop_drop, Nat.add_sub_cancel' hcm1]
      · rcases Nat.lt_or_ge j (numFullChunks pt + 1) with hjlt | hjge
        · -- the buffer is exhausted: a new frame is opened and served from
          have hj' : j ≤ numFullChunks pt := by omega
          have hsfx_eq := suffixAt_refill hrefill hj'
          have hplen : 1 ≤ ((chunkPlains pt).getD j []).length := by
            by_contra h0
            have hPnil : (chunkPlains pt).getD j [] = [] := by
              cases hP : (chunkPlains pt).getD j [] with
              | nil => rfl
              | cons a t => rw [hP] at h0; simp at h0
            rcases Nat.lt_or_ge j (numFullChunks pt) with hlt | hge
            · have := chunkPlains_getD_full hlt
              rw [hPnil] at this
              simp only [List.length_nil] at this
              have := CHUNK_SIZE_pos
              omega
            · have hj2 : j = numFullChunks pt := by omega
              have hrest : (chunkPlains pt).drop (j + 1) = [] := by
                rw [hj2]; exact chunkPlains_drop_past pt
              rw [hsfx_eq, hPnil, hrest] at hnn
              simp at hnn
          have hc1 : 1 ≤ min ((chunkPlains pt).getD j []).length (m + 1) := by omega
          have hcP : min ((chunkPlains pt).getD j []).length (m + 1)
              ≤ ((chunkPlains pt).getD j []).length := Nat.min_le_left _ _
          have hcm1 : min ((chunkPlains pt).getD j []).length (m + 1) ≤ m + 1 :=
            Nat.min_le_right _ _
          have hbs_len : (((chunkPlains pt).getD j []).take
              (min ((chunkPlains pt).getD j []).length (m + 1))).length
              = min ((chunkPlains pt).getD j []).length (m + 1) := by
            simp only [List.length_take]
            omega
          have hbs_take : ((chunkPlains pt).getD j []).take
              (min ((chunkPlains pt).getD j []).length (m + 1))
              = (suffixAt pt j o).take (min ((chunkPlains pt).getD j []).length (m + 1)) := by
            rw [hsfx_eq, List.take_append_of_le_length hcP]
          have hsfx_drop : suffixAt pt (j + 1) (min ((chunkPlains pt).getD j []).length (m + 1))
              = (suffixAt pt j o).drop (min ((chunkPlains pt).getD j []).length (m + 1)) := by
            rw [suffixAt_succ, hsfx_eq, List.drop_append_of_le_length hcP]
          obtain ⟨j2, o2, hrec, hsfx, hi1, hi2⟩ := ih
            (m + 1 - min ((chunkPlains pt).getD j []).length (m + 1)) (j + 1)
            (min ((chunkPlains pt).getD j []).length (m + 1))
            (by rw [plainBefore_succ]; omega) (by omega)
            (by rw [hsfx_drop, List.length_drop]; omega)
            (by omega)
          refine ⟨j2, o2, ?_, ?_, hi1, hi2⟩
          · simp only [readExactLoop]
            rw [readStep_refill o (m + 1) hrefill hj' hcm]
            simp only [ebind_ok, hbs_len]
            rw [if_neg (by omega), hrec]
            simp only [ebind_ok, Except.ok.injEq, Prod.mk.injEq]
            constructor
            · rw [hsfx_drop, hbs_take, ← List.take_add, Nat.add_sub_cancel' hcm1]
            · trivial
          · rw [hsfx, hsfx_drop, List.drop_drop, Nat.add_sub_cancel' hcm1]
        · -- end of stream: nothing is left, contradicting `1 ≤ nn`
          have hj2 : j = numFullChunks pt + 1 := by omega
          rw [hj2] at hrefill ⊢
          rw [hj2, suffixAt_empty hrefill] at hnn
          simp at hnn

theorem readToEndLoop_spec (key nonce pt : List Nat) (hcm : numFullChunks pt < COUNTER_MAX) :
    ∀ (fuel j o : Nat),
      o ≤ (plainBefore pt j).length →
      j ≤ numFullChunks pt + 1 →
      (suffixAt pt j o).length + (numFullChunks pt + 1 - j) + 1 ≤ fuel →
      ∃ r2, readToEndLoop fuel (mkReader key nonce pt j o) = .ok (suffixAt pt j o, r2) := by
  intro fuel
  induction fuel with
  | zero =>
    intro j o _ _ hneed
    omega
  | succ fuel ih =>
    intro j o ho hj hneed
    rcases Nat.lt_or_ge o (plainBefore pt j).length with hserve | hrefill
    · -- drain the buffer first
      have hc1 : 1 ≤ min ((plainBefore pt j).length - o) CHUNK_SIZE := by
        have := CHUNK_SIZE_pos
        omega
      have hcle : min ((plainBefore pt j).length - o) CHUNK_SIZE
          ≤ (plainBefore pt j).length - o := Nat.min_le_left _ _
      have hbs_len : (((plainBefore pt j).drop o).take
          (min ((plainBefore pt j).length - o) CHUNK_SIZE)).length
          = min ((plainBefore pt j).length - o) CHUNK_SIZE := by
        simp only [List.length_take, List.length_drop]
        omega
      have hsd := @suffixAt_serve_drop pt j o _ hcle
      have hslen : (plainBefore pt j).length - o ≤ (suffixAt pt j o).length := by
        rw [suffixAt]
        simp only [List.length_append, List.length_drop]
        omega
      obtain ⟨r2, hrec⟩ := ih j (o + min ((plainBefore pt j).length - o) CHUNK_SIZE)
        (by omega) hj
        (by rw [hsd, List.length_drop]; omega)
      refine ⟨r2, ?_⟩
      simp only [readToEndLoop]
      rw [readStep_serve CHUNK_SIZE hserve]
      simp only [ebind_ok]
      rw [if_neg (by rw [List.isEmpty_iff_length_eq_zero, hbs_len]; omega), hrec]
      simp only [ebind_ok, Except.ok.injEq, Prod.mk.injEq]
      constructor
      · rw [hsd, ← suffixAt_serve_take hcle, List.take_append_drop]
      · trivial
    · rcases Nat.lt_or_ge j (numFullChunks pt + 1) with hjlt | hjge
      · -- the buffer is exhausted: open the next frame
        have hj' : j ≤ numFullChunks pt := by omega
        have hsfx_eq := suffixAt_refill hrefill hj'
        have hPle : ((chunkPlains pt).getD j []).length ≤ CHUNK_SIZE :=
          chunkPlains_getD_le pt j
        have hbs_all : ((chunkPlains pt).getD j []).take
            (min ((chunkPlains pt).getD j []).length CHUNK_SIZE)
            = (chunkPlains pt).getD j [] := by
          rw [Nat.min_eq_left hPle, List.take_length]
        by_cases hPnil : (chunkPlains pt).getD j [] = []
        · -- an empty final frame: the loop stops with nothing more to serve
          have hj2 : j = numFullChunks pt := by
            by_contra hne
            have hlt : j < numFullChunks pt := by omega
            have := chunkPlains_getD_full hlt
            rw [hPnil] at this
            simp only [List.length_nil] at this
            have := CHUNK_SIZE_pos
            omega
          have hrest : (chunkPlains pt).drop (j + 1) = [] := by
            rw [hj2]; exact chunkPlains_drop_past pt
          refine ⟨mkReader key nonce pt (j + 1)
            (min ((chunkPlains pt).getD j []).length CHUNK_SIZE), ?_⟩
          simp only [readToEndLoop]
          rw [readStep_refill o CHUNK_SIZE hrefill hj' hcm]
          simp only [ebind_ok]
          rw [if_pos (by rw [List.isEmpty_iff, hbs_all]; exact hPnil)]
          rw [hsfx_eq, hPnil, hrest]
          simp
        · -- a frame with content: serve it whole and continue
          obtain ⟨r2, hrec⟩ := ih (j + 1) (min ((chunkPlains pt).getD j []).length CHUNK_SIZE)
            (by rw [plainBefore_succ, Nat.min_eq_left hPle]) (by omega)
            (by rw [suffixAt_succ, Nat.min_eq_left hPle, List.drop_length, List.nil_append]
                rw [hsfx_eq] at hneed
                have hp1 : 1 ≤ ((chunkPlains pt).getD j []).length := by
                  rcases List.exists_cons_of_ne_nil hPnil with ⟨a, t, hP⟩
                  rw [hP, List.length_cons]
                  omega
                simp only [List.length_append] at hneed
                omega)
          refine ⟨r2, ?_⟩
          simp only [readToEndLoop]
          rw [readStep_refill o CHUNK_SIZE hrefill hj' hcm]
          simp only [ebind_ok]
          rw [if_neg (by rw [List.isEmpty_iff, hbs_all]; exact hPnil), hbs_all, hrec]
          simp only [ebind_ok, Except.ok.injEq, Prod.mk.injEq]
          constructor
          · rw [suffixAt_succ, Nat.min_eq_left hPle, List.drop_length, List.nil_append,
              hsfx_eq]
          · trivial
      · -- end of stream: the sticky 0-byte read stops the loop
        have hj2 : j = numFullChunks pt + 1 := by omega
        refine ⟨mkReader key nonce pt j o, ?_⟩
        simp only [readToEndLoop]
        rw [readStep_sticky _ _ (by simp only [mkReader, hj2]; exact beq_self_eq_true _)
          (by simp only [mkReader]; omega)]
        simp only [ebind_ok]
        rw [if_pos (by simp)]
        rw [hj2, suffixAt_empty (by rw [← hj2]; exact hrefill)]

/-! ### unpack over a packed container -/

theorem pow_256_4 : (256 : Nat) ^ 4 = 2 ^ 32 := by norm_num

theorem sealedStream_length (key nonce pt : List Nat) :
    (sealedStream key nonce pt).length = pt.length + 16 * (numFullChunks pt + 1) := by
  rw [sealedStream, chunkFrames, sealRange_flatten_length, chunkPlains_flatten,
    chunkPlains_length]

theorem readerFuel_ge (key nonce pt : List Nat) (j o : Nat) :
    (suffixAt pt j o).length + (numFullChunks pt + 1 - j) + 1 ≤
      readerFuel (mkReader key nonce pt j o) := by
  have h1 : ((chunkFrames key nonce pt).drop j).flatten.length
      = ((chunkPlains pt).drop j).flatten.length + 16 * ((chunkPlains pt).drop j).length := by
    rw [chunkFrames_drop, sealRange_flatten_length]
  have h2 : ((chunkPlains pt).drop j).length = numFullChunks pt + 1 - j := by
    rw [List.length_drop, chunkPlains_length]
  simp only [readerFuel, mkReader, suffixAt, List.length_append, List.length_drop, h1, h2]
  omega

theorem unpack_pack_roundtrip (comp : List Nat → List Nat)
    (decomp : List Nat → Option (List Nat))
    (hcd : ∀ s, decomp (comp s) = some s)
    (creds : Creds) (salt nonce name B : List Nat)
    (hsalt : salt.length = 16) (hnonce : nonce.length = 7)
    (hname : name.length + 17 < 2 ^ 32)
    (hB : B.length < 2 ^ 64)
    (hfr : numFullChunks (le 4 (serializeHeader ⟨false, name, B.length⟩).length
        ++ (serializeHeader ⟨false, name, B.length⟩ ++ comp B)) + 1 ≤ COUNTER_MAX) :
    ∃ c, pack comp creds salt nonce name B = some c ∧
      unpack decomp creds c = .ok (.file name B) := by
  set hb := serializeHeader { is_dir := false, original_name := name, original_size := B.length }
    with hhb
  set pt := le 4 hb.length ++ (hb ++ comp B) with hpt
  set key := processCredentials creds salt with hkey
  have hcm : numFullChunks pt < COUNTER_MAX := by omega
  refine ⟨_, pack_spec comp creds salt nonce name B hfr, ?_⟩
  rw [← hhb, ← hpt, ← hkey]
  have hsslen := sealedStream_length key nonce pt
  have hclen : (salt ++ nonce ++ sealedStream key nonce pt).length
      = 23 + (sealedStream key nonce pt).length := by
    simp only [List.length_append, hsalt, hnonce]
  rw [unpack, if_neg (by omega)]
  have htake16 : (salt ++ nonce ++ sealedStream key nonce pt).take 16 = salt := by
    rw [List.append_assoc]
    exact List.take_left' hsalt
  have hdrop23 : (salt ++ nonce ++ sealedStream key nonce pt).drop 23
      = sealedStream key nonce pt :=
    List.drop_left' (by rw [List.length_append, hsalt, hnonce])
  have hdrop16 : (salt ++ nonce ++ sealedStream key nonce pt).drop 16
      = nonce ++ sealedStream key nonce pt := by
    rw [List.append_assoc]
    exact List.drop_left' hsalt
  have htake7 : (nonce ++ sealedStream key nonce pt).take 7 = nonce :=
    List.take_left' hnonce
  simp only [htake16, hdrop16, htake7, hdrop23, ← hkey, reader_init_eq]
  -- the 4-byte header length
  have hsz : suffixAt pt 0 0 = pt := suffixAt_zero pt
  have hptlen4 : (4 : Nat) ≤ pt.length := by
    rw [hpt]
    simp only [List.length_append, le_length]
    omega
  obtain ⟨j1, o1, hr1, hs1, hi11, hi12⟩ := readExactLoop_spec key nonce pt hcm 4 4 0 0
    (by simp [plainBefore]) (by omega) (by rw [hsz]; exact hptlen4) le_rfl
  rw [hsz] at hr1 hs1
  have hre1 : readExact (mkReader key nonce pt 0 0) 4
      = .ok (pt.take 4, mkReader key nonce pt j1 o1) := hr1
  rw [hre1, emapError_ok]
  simp only [ebind_ok]
  have htake4 : pt.take 4 = le 4 hb.length := by
    rw [hpt]
    exact List.take_left' (le_length 4 hb.length)
  have hhblen : hb.length = 17 + name.length := by
    rw [hhb]
    exact serializeHeader_length _
  have hbval : bval (pt.take 4) = hb.length := by
    rw [htake4]
    exact bval_le (by rw [pow_256_4]; omega)
  rw [hbval]
  -- the header bytes
  have hptdrop4 : pt.drop 4 = hb ++ comp B := by
    rw [hpt]
    exact List.drop_left' (le_length 4 hb.length)
  obtain ⟨j2, o2, hr2, hs2, hi21, hi22⟩ := readExactLoop_spec key nonce pt hcm
    hb.length hb.length j1 o1 hi11 hi12
    (by rw [hs1, hptdrop4]; simp) le_rfl
  have hre2 : readExact (mkReader key nonce pt j1 o1) hb.length
      = .ok ((suffixAt pt j1 o1).take hb.length, mkReader key nonce pt j2 o2) := hr2
  rw [hre2, emapError_ok]
  simp only [ebind_ok]
  have htakehb : (suffixAt pt j1 o1).take hb.length = hb := by
    rw [hs1, hptdrop4]
    exact List.take_left' rfl
  have hdeser : deserializeHeader ((suffixAt pt j1 o1).take hb.length)
      = some { is_dir := false, original_name := name, original_size := B.length } := by
    rw [htakehb, hhb]
    refine deserialize_serialize _ ?_ ?_
    · show name.length < 2 ^ 64
      have h64 : (2 : Nat) ^ 32 ≤ 2 ^ 64 := by norm_num
      omega
    · exact hB
  rw [hdeser, oelim_some]
  -- the payload
  have hsuffix2 : suffixAt pt j2 o2 = comp B := by
    rw [hs2, hs1, hptdrop4]
    exact List.drop_left' rfl
  obtain ⟨r3, hr3⟩ := readToEndLoop_spec key nonce pt hcm
    (readerFuel (mkReader key nonce pt j2 o2)) j2 o2 hi21 hi22
    (readerFuel_ge key nonce pt j2 o2)
  have hre3 : readToEnd (mkReader key nonce pt j2 o2)
      = .ok (suffixAt pt j2 o2, r3) := hr3
  rw [hre3, emapError_ok]
  simp only [ebind_ok]
  rw [if_neg (by simp), hsuffix2, hcd B, oelim_some]

/-! ### Frame invariants of the sealer -/

theorem flushChunk_inv {b : Bool} {w w' : EncryptedWriter} (h : flushChunk b w = some w') :
    w'.key = w.key ∧ w'.nonce = w.nonce ∧
    ((w' = w ∧ w.buffer = []) ∨ (w'.buffer = [] ∧
      w'.frames = w.frames ++ [sealFrame w.key w.nonce w.counter false w.buffer])) := by
  rw [flushChunk] at h
  split_ifs at h with h1 h2
  · obtain rfl := Option.some.inj h
    exact ⟨rfl, rfl, Or.inl ⟨rfl, List.isEmpty_iff.mp h1.1⟩⟩
  · obtain rfl := Option.some.inj h
    exact ⟨rfl, rfl, Or.inr ⟨rfl, rfl⟩⟩

theorem flushChunk_flagFree {b : Bool} {w w' : EncryptedWriter}
    (h : flushChunk b w = some w')
    (hw : ∀ f ∈ w.frames, isLastFlaggedB f = false) :
    ∀ f ∈ w'.frames, isLastFlaggedB f = false := by
  obtain ⟨hk, hn, hcase⟩ := flushChunk_inv h
  rcases hcase with ⟨rfl, _⟩ | ⟨_, hfr⟩
  · exact hw
  · intro f hf
    rw [hfr] at hf
    rcases List.mem_append.mp hf with hl | hr
    · exact hw f hl
    · rw [List.mem_singleton.mp hr]
      exact sealFrame_not_lastFlagged _ _ _ _

theorem writeLoop_flagFree (fuel : Nat) :
    ∀ (data : List Nat) (w w' : EncryptedWriter), writeLoop fuel w data = some w' →
      (∀ f ∈ w.frames, isLastFlaggedB f = false) →
      ∀ f ∈ w'.frames, isLastFlaggedB f = false := by
  induction fuel with
  | zero =>
    intro data w w' h hw
    cases data with
    | nil => obtain rfl := Option.some.inj h; exact hw
    | cons d ds => exact absurd h (by simp [writeLoop])
  | succ fuel ih =>
    intro data w w' h hw
    cases data with
    | nil => obtain rfl := Option.some.inj h; exact hw
    | cons d ds =>
      simp only [writeLoop] at h
      by_cases hc : min (CHUNK_SIZE - w.buffer.length) (d :: ds).length = 0
      · rw [if_pos hc] at h
        exact absurd h (by simp)
      · rw [if_neg hc] at h
        by_cases hfull : (w.buffer ++ (d :: ds).take (min (CHUNK_SIZE - w.buffer.length)
            (d :: ds).length)).length = CHUNK_SIZE
        · rw [if_pos hfull] at h
          rcases Option.bind_eq_some.mp h with ⟨w2, hfc, hrec⟩
          exact ih _ w2 w' hrec (flushChunk_flagFree hfc hw)
        · rw [if_neg hfull, Option.some_bind] at h
          exact ih ((d :: ds).drop (min (CHUNK_SIZE - w.buffer.length) (d :: ds).length))
            { w with
                buffer := w.buffer ++ (d :: ds).take
                  (min (CHUNK_SIZE - w.buffer.length) (d :: ds).length) }
            w' h hw

theorem runOps_flagFree :
    ∀ (ops : List WOp) (w w' : EncryptedWriter), runOps w ops = some w' →
      (∀ f ∈ w.frames, isLastFlaggedB f = false) →
      ∀ f ∈ w'.frames, isLastFlaggedB f = false := by
  intro ops
  induction ops with
  | nil =>
    intro w w' h hw
    obtain rfl := Option.some.inj h
    exact hw
  | cons op ops ih =>
    intro w w' h hw
    cases op with
    | write d =>
      simp only [runOps] at h
      rcases Option.bind_eq_some.mp h with ⟨w1, hwb, hrec⟩
      exact ih w1 w' hrec (writeLoop_flagFree d.length d w w1 hwb hw)
    | flush =>
      simp only [runOps] at h
      rcases Option.bind_eq_some.mp h with ⟨w1, hfc, hrec⟩
      exact ih w1 w' hrec (flushChunk_flagFree hfc hw)

theorem dropWriter_flagFree {w : EncryptedWriter}
    (hw : ∀ f ∈ w.frames, isLastFlaggedB f = false) :
    ∀ f ∈ (dropWriter w).frames, isLastFlaggedB f = false := by
  rw [dropWriter]
  cases hfc : flushChunk true w with
  | none => simpa using hw
  | some w1 => simpa using flushChunk_flagFree hfc hw

theorem writeLoop_sizes (fuel : Nat) :
    ∀ (data : List Nat) (w w' : EncryptedWriter), writeLoop fuel w data = some w' →
      w.buffer.length < CHUNK_SIZE →
      (∀ f ∈ w.frames, f.length = ENC_CHUNK_SIZE) →
      w'.key = w.key ∧ w'.nonce = w.nonce ∧ w'.buffer.length < CHUNK_SIZE ∧
        (∀ f ∈ w'.frames, f.length = ENC_CHUNK_SIZE) := by
  induction fuel with
  | zero =>
    intro data w w' h hb hw
    cases data with
    | nil => obtain rfl := Option.some.inj h; exact ⟨rfl, rfl, hb, hw⟩
    | cons d ds => exact absurd h (by simp [writeLoop])
  | succ fuel ih =>
    intro data w w' h hb hw
    cases data with
    | nil => obtain rfl := Option.some.inj h; exact ⟨rfl, rfl, hb, hw⟩
    | cons d ds =>
      simp only [writeLoop] at h
      by_cases hc : min (CHUNK_SIZE - w.buffer.length) (d :: ds).length = 0
      · rw [if_pos hc] at h
        exact absurd h (by simp)
      · rw [if_neg hc] at h
        by_cases hfull : (w.buffer ++ (d :: ds).take (min (CHUNK_SIZE - w.buffer.length)
            (d :: ds).length)).length = CHUNK_SIZE
        · rw [if_pos hfull] at h
          rcases Option.bind_eq_some.mp h with ⟨w2, hfc, hrec⟩
          obtain ⟨hk2, hn2, hcase⟩ := flushChunk_inv hfc
          have hw2 : w2.buffer.length < CHUNK_SIZE ∧
              ∀ f ∈ w2.frames, f.length = ENC_CHUNK_SIZE := by
            rcases hcase with ⟨_, hnil⟩ | ⟨hbuf, hfr⟩
            · exfalso
              simp only at hnil
              rw [hnil] at hfull
              simp only [List.length_nil] at hfull
              have := CHUNK_SIZE_pos
              omega
            · constructor
              · rw [hbuf]
                simpa using CHUNK_SIZE_pos
              · intro f hf
                rw [hfr] at hf
                rcases List.mem_append.mp hf with hl | hr
                · exact hw f hl
                · rw [List.mem_singleton.mp hr, sealFrame_length]
                  simp only at hfull ⊢
                  rw [hfull, ENC_CHUNK_SIZE]
          obtain ⟨hk3, hn3, hb3, hf3⟩ := ih _ w2 w' hrec hw2.1 hw2.2
          exact ⟨hk3.trans hk2, hn3.trans hn2, hb3, hf3⟩
        · rw [if_neg hfull, Option.some_bind] at h
          have hble : (w.buffer ++ (d :: ds).take (min (CHUNK_SIZE - w.buffer.length)
              (d :: ds).length)).length < CHUNK_SIZE := by
            have h1 : (w.buffer ++ (d :: ds).take (min (CHUNK_SIZE - w.buffer.length)
                (d :: ds).length)).length ≤ CHUNK_SIZE := by
              simp only [List.length_append, List.length_take]
              omega
            omega
          exact ih ((d :: ds).drop (min (CHUNK_SIZE - w.buffer.length) (d :: ds).length))
            { w with
                buffer := w.buffer ++ (d :: ds).take
                  (min (CHUNK_SIZE - w.buffer.length) (d :: ds).length) }
            w' h hble hw

theorem flushChunk_true_inv {w w' : EncryptedWriter} (h : flushChunk true w = some w') :
    w' = { w with
            frames := w.frames ++ [sealFrame w.key w.nonce w.counter false w.buffer]
            counter := w.counter + 1
            buffer := [] } := by
  rw [flushChunk, if_neg (by simp)] at h
  by_cases h2 : w.counter < COUNTER_MAX
  · rw [if_pos h2] at h
    exact (Option.some.inj h).symm
  · rw [if_neg h2] at h
    exact absurd h (by simp)

theorem runOps_writes_sizes :
    ∀ (ws : List (List Nat)) (w w' : EncryptedWriter),
      runOps w (ws.map WOp.write) = some w' →
      w.buffer.length < CHUNK_SIZE →
      (∀ f ∈ w.frames, f.length = ENC_CHUNK_SIZE) →
      w'.buffer.length < CHUNK_SIZE ∧ (∀ f ∈ w'.frames, f.length = ENC_CHUNK_SIZE) := by
  intro ws
  induction ws with
  | nil =>
    intro w w' h hb hw
    obtain rfl := Option.some.inj h
    exact ⟨hb, hw⟩
  | cons d ws ih =>
    intro w w' h hb hw
    simp only [List.map_cons, runOps] at h
    rcases Option.bind_eq_some.mp h with ⟨w1, hwb, hrec⟩
    obtain ⟨_, _, hb1, hf1⟩ := writeLoop_sizes d.length d w w1 hwb hb hw
    exact ih w1 w' hrec hb1 hf1

/-! ### Opening with the wrong key -/

theorem sealedStream_take_first (key nonce pt : List Nat) :
    min ENC_CHUNK_SIZE (sealedStream key nonce pt).length
      = (sealFrame key nonce 0 false ((chunkPlains pt).getD 0 [])).length ∧
    (sealedStream key nonce pt).take (min ENC_CHUNK_SIZE (sealedStream key nonce pt).length)
      = sealFrame key nonce 0 false ((chunkPlains pt).getD 0 []) := by
  have h0 : sealedStream key nonce pt = ((chunkFrames key nonce pt).drop 0).flatten := by
    rw [sealedStream, List.drop_zero]
  have hcons := @chunkFrames_drop_cons key nonce pt 0 (Nat.zero_le _)
  have hinner : sealedStream key nonce pt =
      sealFrame key nonce 0 false ((chunkPlains pt).getD 0 []) ++
        ((chunkFrames key nonce pt).drop 1).flatten := by
    rw [h0, hcons, List.flatten_cons]
  have hflen := sealFrame_length key nonce 0 false ((chunkPlains pt).getD 0 [])
  have hM : min ENC_CHUNK_SIZE (sealedStream key nonce pt).length
      = (sealFrame key nonce 0 false ((chunkPlains pt).getD 0 [])).length := by
    rw [hinner, List.length_append, hflen]
    rcases Nat.lt_or_ge 0 (numFullChunks pt) with hlt | hge
    · have hfull := chunkPlains_getD_full hlt
      rw [hfull, ENC_CHUNK_SIZE]
      omega
    · have hnf : numFullChunks pt = 0 := by omega
      have hpast : (chunkFrames key nonce pt).drop 1 = [] := by
        have := chunkFrames_drop_past key nonce pt
        rw [hnf] at this
        exact this
      have hlast : ((chunkPlains pt).getD 0 []).length < CHUNK_SIZE := by
        have := chunkPlains_getD_last pt
        rw [hnf] at this
        rw [this]
        exact remChunk_length_lt pt
      rw [hpast]
      simp only [List.flatten_nil, List.length_nil, Nat.zero_add]
      rw [ENC_CHUNK_SIZE]
      omega
  refine ⟨hM, ?_⟩
  rw [hM, hinner]
  exact List.take_left' rfl

theorem readStep_wrong_key (key key2 nonce pt : List Nat) (n : Nat)
    (hk : encL key ≠ encL key2) :
    readStep (DecryptedReader.init (sealedStream key nonce pt) key2 nonce) n
      = .error .macError := by
  obtain ⟨hmin, htake⟩ := sealedStream_take_first key nonce pt
  simp only [readStep, DecryptedReader.init]
  rw [if_pos (by simp), if_neg (by simp),
    if_neg (by rw [hmin, sealFrame_length]; omega), htake,
    openFrame_wrong_key nonce _ hk, oelim_none]

theorem unpack_wrong_key (comp : List Nat → List Nat)
    (decomp : List Nat → Option (List Nat))
    (creds creds2 : Creds) (salt nonce name B : List Nat)
    (hsalt : salt.length = 16) (hnonce : nonce.length = 7)
    (hcb : ∀ a ∈ combinedCreds creds, a < 256)
    (hcb2 : ∀ a ∈ combinedCreds creds2, a < 256)
    (hne : combinedCreds creds ≠ combinedCreds creds2)
    (hfr : numFullChunks (le 4 (serializeHeader ⟨false, name, B.length⟩).length
        ++ (serializeHeader ⟨false, name, B.length⟩ ++ comp B)) + 1 ≤ COUNTER_MAX) :
    ∃ c, pack comp creds salt nonce name B = some c ∧
      unpack decomp creds2 c = .error .authError := by
  set hb := serializeHeader { is_dir := false, original_name := name, original_size := B.length }
    with hhb
  set pt := le 4 hb.length ++ (hb ++ comp B) with hpt
  set key := processCredentials creds salt with hkey
  set key2 := processCredentials creds2 salt with hkey2
  have hkne : encL key ≠ encL key2 := by
    rw [hkey, hkey2, processCredentials_eq_combined, processCredentials_eq_combined]
    exact argon2M_ne hcb hcb2 hne
  refine ⟨_, pack_spec comp creds salt nonce name B hfr, ?_⟩
  rw [← hhb, ← hpt, ← hkey]
  have hsslen := sealedStream_length key nonce pt
  have hclen : (salt ++ nonce ++ sealedStream key nonce pt).length
      = 23 + (sealedStream key nonce pt).length := by
    simp only [List.length_append, hsalt, hnonce]
  rw [unpack, if_neg (by omega)]
  have htake16 : (salt ++ nonce ++ sealedStream key nonce pt).take 16 = salt := by
    rw [List.append_assoc]
    exact List.take_left' hsalt
  have hdrop23 : (salt ++ nonce ++ sealedStream key nonce pt).drop 23
      = sealedStream key nonce pt :=
    List.drop_left' (by rw [List.length_append, hsalt, hnonce])
  have hdrop16 : (salt ++ nonce ++ sealedStream key nonce pt).drop 16
      = nonce ++ sealedStream key nonce pt := by
    rw [List.append_assoc]
    exact List.drop_left' hsalt
  have htake7 : (nonce ++ sealedStream key nonce pt).take 7 = nonce :=
    List.take_left' hnonce
  simp only [htake16, hdrop16, htake7, hdrop23, ← hkey2]
  have hre : readExact (DecryptedReader.init (sealedStream key nonce pt) key2 nonce) 4
      = .error .macError := by
    rw [readExact]
    simp only [readExactLoop]
    rw [readStep_wrong_key key key2 nonce pt 4 hkne, ebind_error]
  rw [hre, emapError_error, ebind_error]
  rfl

/-! ### How the opener decides that the stream is over -/

theorem readStep_eof_iff_short {r : DecryptedReader} {n : Nat} {bs : List Nat}
    {r' : DecryptedReader}
    (ho : r.buffer.length ≤ r.offset) (he : r.eof = false)
    (h : readStep r n = .ok (bs, r')) :
    (r'.eof = true ↔ r.inner.length < ENC_CHUNK_SIZE) := by
  rw [readStep, if_pos ho] at h
  simp only [he] at h
  rw [if_neg (by simp)] at h
  by_cases h0 : min ENC_CHUNK_SIZE r.inner.length = 0
  · rw [if_pos h0] at h
    have h0' : r.inner.length = 0 := by
      have := CHUNK_SIZE_pos
      simp only [ENC_CHUNK_SIZE] at h0
      omega
    obtain ⟨_, rfl⟩ := Prod.mk.injEq _ _ _ _ ▸ Except.ok.inj h
    constructor
    · intro _
      rw [h0']
      simp only [ENC_CHUNK_SIZE]
      have := CHUNK_SIZE_pos
      omega
    · intro _
      rfl
  · rw [if_neg h0] at h
    cases hof : openFrame r.key r.nonce r.counter false
        (r.inner.take (min ENC_CHUNK_SIZE r.inner.length)) with
    | none =>
      rw [hof, oelim_none] at h
      exact absurd h (by simp)
    | some pt =>
      rw [hof, oelim_some] at h
      by_cases hcc : r.counter < COUNTER_MAX
      · rw [if_pos hcc] at h
        rw [serveFrom] at h
        obtain ⟨_, rfl⟩ := Prod.mk.injEq _ _ _ _ ▸ Except.ok.inj h
        simp only [decide_eq_true_eq]
        omega
      · rw [if_neg hcc] at h
        exact absurd h (by simp)

/-! ## The claims -/

/-- C1: for every byte string `B` and every password (with or without a keyfile),
unpacking the container produced by `pack` with the same credentials reproduces
`B` byte-for-byte as a file named `original_name`.  The compression codec is the
black box `comp`/`decomp` with its round-trip contract; the size bounds are the
`u32`/`u64` ranges of the header fields and the 32-bit frame counter. -/
theorem claim_C1_roundtrip (comp : List Nat → List Nat)
    (decomp : List Nat → Option (List Nat))
    (hcd : ∀ s, decomp (comp s) = some s)
    (creds : Creds) (salt nonce name B : List Nat)
    (hsalt : salt.length = 16) (hnonce : nonce.length = 7)
    (hname : name.length + 17 < 2 ^ 32)
    (hB : B.length < 2 ^ 64)
    (hfr : numFullChunks (le 4 (serializeHeader ⟨false, name, B.length⟩).length
        ++ (serializeHeader ⟨false, name, B.length⟩ ++ comp B)) + 1 ≤ COUNTER_MAX) :
    ∃ c, pack comp creds salt nonce name B = some c ∧
      unpack decomp creds c = .ok (.file name B) :=
  unpack_pack_roundtrip comp decomp hcd creds salt nonce name B hsalt hnonce hname hB hfr

theorem claim_C1_witness :
    ∃ c, pack (fun s => s) ⟨[112], none⟩ (List.replicate 16 0) (List.replicate 7 0)
        [97] [1, 2, 3] = some c ∧
      unpack some ⟨[112], none⟩ c = .ok (.file [97] [1, 2, 3]) :=
  claim_C1_roundtrip (fun s => s) some (fun _ => rfl) ⟨[112], none⟩
    (List.replicate 16 0) (List.replicate 7 0) [97] [1, 2, 3]
    (by decide) (by decide) (by decide) (by decide) (by decide)

/-- C2: the claim says exactly one frame of a sealed stream carries the AEAD
last-frame flag and the opener detects the terminal frame by that flag.  In the
code neither holds: the sealer only ever calls `encrypt_next` (never
`encrypt_last`), so NO frame of a packed container carries the flag (the count
of flagged frames is 0, not 1); and the opener sets its `eof` state exactly when
the inner source delivered fewer than `CHUNK_SIZE + 16` bytes — terminal
detection by short read, independent of any flag. -/
theorem claim_C2_terminal_flag (comp : List Nat → List Nat) (creds : Creds)
    (salt nonce name B : List Nat)
    (hfr : numFullChunks (le 4 (serializeHeader ⟨false, name, B.length⟩).length
        ++ (serializeHeader ⟨false, name, B.length⟩ ++ comp B)) + 1 ≤ COUNTER_MAX) :
    ((packWriter comp creds salt nonce name B).map
        (fun w => w.frames.countP isLastFlaggedB)) = some 0 ∧
    ∀ (r : DecryptedReader) (n : Nat) (bs : List Nat) (r' : DecryptedReader),
      r.buffer.length ≤ r.offset → r.eof = false →
      readStep r n = .ok (bs, r') →
      (r'.eof = true ↔ r.inner.length < ENC_CHUNK_SIZE) := by
  constructor
  · rw [packWriter_spec comp creds salt nonce name B hfr, Option.map_some']
    refine congrArg some (List.countP_eq_zero.mpr ?_)
    intro f hf
    simp [sealRange_not_lastFlagged _ _ _ _ f hf]
  · intro r n bs r' ho he h
    exact readStep_eof_iff_short ho he h

theorem claim_C2_witness :
    ((packWriter (fun s => s) ⟨[112], none⟩ (List.replicate 16 0) (List.replicate 7 0)
        [97] [1]).map (fun w => w.frames.countP isLastFlaggedB)) = some 0 ∧
    (({ DecryptedReader.init [] [3] [4] with eof := true }).eof = true ↔
      (DecryptedReader.init [] [3] [4]).inner.length < ENC_CHUNK_SIZE) := by
  have h := claim_C2_terminal_flag (fun s => s) ⟨[112], none⟩ (List.replicate 16 0)
    (List.replicate 7 0) [97] [1] (by decide)
  exact ⟨h.1, h.2 (DecryptedReader.init [] [3] [4]) 1 []
    { DecryptedReader.init [] [3] [4] with eof := true } (by decide) (by decide) rfl⟩

/-- C3: the claim says that when the inner source yields zero bytes before a new
frame, the opener ends cleanly only if a terminal frame was already opened and
otherwise raises a truncation error.  The code has no such check and no
truncation error at all: whenever the inner source yields zero bytes the read
returns `Ok(0)` (a clean end of stream) and merely sets `eof`, for every state
in which no terminal frame has been seen (`eof = false`).  Consequently a
container truncated at a frame boundary drains cleanly at the opener. -/
theorem claim_C3_clean_eof_on_empty (r : DecryptedReader) (n : Nat)
    (ho : r.buffer.length ≤ r.offset) (he : r.eof = false) (hi : r.inner = []) :
    readStep r n = .ok ([], { r with eof := true }) := by
  rw [readStep, if_pos ho]
  simp only [he]
  rw [if_neg (by simp), if_pos (by rw [hi]; simp)]

theorem claim_C3_witness :
    readStep (DecryptedReader.init [] [5] [6]) 7
      = .ok ([], { DecryptedReader.init [] [5] [6] with eof := true }) :=
  claim_C3_clean_eof_on_empty (DecryptedReader.init [] [5] [6]) 7
    (by decide) (by decide) rfl

/-- C4: the claim says exactly one terminal (last-frame-flagged) frame is emitted
per sealer lifetime.  In the code, over ANY lifetime — any mix of writes and
flushes, closed by `Drop` — the number of frames carrying the AEAD last-frame
flag is zero, because `flush_chunk` always seals with `encrypt_next`.  (The
flush behaviour also diverges: `Write::flush` seals the current buffer as if
final — even when empty — so an explicit flush followed by `Drop` emits two
unflagged frames; see the C6 counterexample.) -/
theorem claim_C4_no_terminal_frames (key nonce : List Nat) (ops : List WOp)
    (w : EncryptedWriter) (h : runOps (EncryptedWriter.init key nonce) ops = some w) :
    ((dropWriter w).frames.countP isLastFlaggedB) = 0 := by
  apply List.countP_eq_zero.mpr
  intro f hf
  have hff := runOps_flagFree ops (EncryptedWriter.init key nonce) w h
    (by simp [EncryptedWriter.init])
  have hdf := @dropWriter_flagFree w hff
  simp [hdf f hf]

theorem claim_C4_witness :
    ((dropWriter (EncryptedWriter.init [5] [6])).frames.countP isLastFlaggedB) = 0 :=
  claim_C4_no_terminal_frames [5] [6] [] (EncryptedWriter.init [5] [6]) rfl

/-- C5 counterexample: two distinct credential pairs — a bare password equal to
`p ++ sha256(K)` on one side, and the password `p` with the keyfile `K` on the
other — produce the same combined credential bytes (the code concatenates
password and digest with no separator), hence the same key, and unpacking with
the "wrong" credentials succeeds and reproduces the payload instead of failing
with an authentication error. -/
theorem claim_C5_counterexample :
    (Creds.mk ([112] ++ sha256M [42]) none ≠ Creds.mk [112] (some [42])) ∧
    ((pack (fun s => s) ⟨[112] ++ sha256M [42], none⟩ (List.replicate 16 1)
        (List.replicate 7 2) [97] [5, 6]).map
      (fun c => unpack some ⟨[112], some [42]⟩ c))
      = some (.ok (.file [97] [5, 6])) := by
  constructor
  · decide
  · rfl

/-- C5 amended: for credentials whose combined credential byte strings differ
(the password‖digest concatenation ambiguity excluded), unpacking a packed
container with the wrong credentials fails with an authentication error — the
AEAD tag of the very first frame does not verify, so the failure happens while
decrypting the header, before the output file is created, and no payload byte
is written. -/
theorem claim_C5_wrong_key (comp : List Nat → List Nat)
    (decomp : List Nat → Option (List Nat))
    (creds creds2 : Creds) (salt nonce name B : List Nat)
    (hsalt : salt.length = 16) (hnonce : nonce.length = 7)
    (hcb : ∀ a ∈ combinedCreds creds, a < 256)
    (hcb2 : ∀ a ∈ combinedCreds creds2, a < 256)
    (hne : combinedCreds creds ≠ combinedCreds creds2)
    (hfr : numFullChunks (le 4 (serializeHeader ⟨false, name, B.length⟩).length
        ++ (serializeHeader ⟨false, name, B.length⟩ ++ comp B)) + 1 ≤ COUNTER_MAX) :
    ∃ c, pack comp creds salt nonce name B = some c ∧
      unpack decomp creds2 c = .error .authError :=
  unpack_wrong_key comp decomp creds creds2 salt nonce name B hsalt hnonce hcb hcb2 hne hfr

theorem claim_C5_witness :
    ∃ c, pack (fun s => s) ⟨[112], none⟩ (List.replicate 16 1) (List.replicate 7 2)
        [97] [5] = some c ∧
      unpack some ⟨[113], none⟩ c = .error .authError :=
  claim_C5_wrong_key (fun s => s) some ⟨[112], none⟩ ⟨[113], none⟩
    (List.replicate 16 1) (List.replicate 7 2) [97] [5]
    (by decide) (by decide) (by decide) (by decide) (by decide) (by decide)

/-- C6 counterexample: the claim quantifies over every sequence of `write` and
`flush` calls, but `Write::flush` seals the buffer as a frame (even when short
or empty).  After `write [9]; flush` and the closing flush, the wire frames have
lengths `[17, 16]`: the first frame is not the last one of the stream, yet its
length 17 is not `CHUNK_SIZE + 16 = 65552`. -/
theorem claim_C6_counterexample :
    ((runOps (EncryptedWriter.init [3] [4]) [WOp.write [9], WOp.flush]).bind
        (flushChunk true)).map (fun w => w.frames.map List.length) = some [17, 16] ∧
    (17 : Nat) ≠ ENC_CHUNK_SIZE := by
  constructor
  · rfl
  · decide

/-- C6 amended: for every sequence of plain `write` calls with no intermediate
flush, closed once at the end, every frame except the final one is exactly
`CHUNK_SIZE + 16 = 65552` bytes on the wire, and the final frame is between 16
and `CHUNK_SIZE + 16` bytes. -/
theorem claim_C6_frame_sizes (key nonce : List Nat) (ws : List (List Nat))
    (w w2 : EncryptedWriter)
    (h : runOps (EncryptedWriter.init key nonce) (ws.map WOp.write) = some w)
    (hc : flushChunk true w = some w2) :
    (∀ f ∈ w2.frames.dropLast, f.length = ENC_CHUNK_SIZE) ∧
    (∀ f, w2.frames.getLast? = some f → 16 ≤ f.length ∧ f.length ≤ ENC_CHUNK_SIZE) := by
  obtain ⟨hb, hfr⟩ := runOps_writes_sizes ws (EncryptedWriter.init key nonce) w h
    (by simp [EncryptedWriter.init, CHUNK_SIZE_pos]) (by simp [EncryptedWriter.init])
  have h2 := flushChunk_true_inv hc
  constructor
  · intro f hf
    rw [h2] at hf
    simp only [List.dropLast_concat] at hf
    exact hfr f hf
  · intro f hf
    rw [h2] at hf
    simp only [List.getLast?_concat, Option.some.injEq] at hf
    rw [← hf, sealFrame_length, ENC_CHUNK_SIZE]
    omega

theorem claim_C6_witness :
    (∀ f ∈ ({ key := [7], nonce := [8], counter := 1, buffer := [], frames := [[50, 65, 0, 0, 0] ++ List.replicate 11 0] } : EncryptedWriter).frames.dropLast,
      f.length = ENC_CHUNK_SIZE) ∧
    (∀ f, ({ key := [7], nonce := [8], counter := 1, buffer := [], frames := [[50, 65, 0, 0, 0] ++ List.replicate 11 0] } : EncryptedWriter).frames.getLast? = some f →
      16 ≤ f.length ∧ f.length ≤ ENC_CHUNK_SIZE) :=
  claim_C6_frame_sizes [7] [8] [] (EncryptedWriter.init [7] [8])
    { key := [7], nonce := [8], counter := 1, buffer := [], frames := [[50, 65, 0, 0, 0] ++ List.replicate 11 0] }
    rfl (by decide)

/-- C7: every container `pack` produces is exactly the 16-byte salt, then the
7-byte base nonce, in clear, followed by the sealed stream; and the plaintext
inside the sealed stream is the 4-byte little-endian header length, then the
serialized header bytes, then the compressed payload. -/
theorem claim_C7_container_format (comp : List Nat → List Nat) (creds : Creds)
    (salt nonce name B : List Nat)
    (hsalt : salt.length = 16) (hnonce : nonce.length = 7)
    (hfr : numFullChunks (le 4 (serializeHeader ⟨false, name, B.length⟩).length
        ++ (serializeHeader ⟨false, name, B.length⟩ ++ comp B)) + 1 ≤ COUNTER_MAX) :
    salt.length = 16 ∧ nonce.length = 7 ∧
    pack comp creds salt nonce name B = some (salt ++ nonce ++
      sealedStream (processCredentials creds salt) nonce
        (le 4 (serializeHeader ⟨false, name, B.length⟩).length
          ++ (serializeHeader ⟨false, name, B.length⟩ ++ comp B))) :=
  ⟨hsalt, hnonce, pack_spec comp creds salt nonce name B hfr⟩

theorem claim_C7_witness :
    (List.replicate 16 0 : List Nat).length = 16 ∧
    (List.replicate 7 1 : List Nat).length = 7 ∧
    pack (fun s => s) ⟨[112], none⟩ (List.replicate 16 0) (List.replicate 7 1) [98] [9]
      = some (List.replicate 16 0 ++ List.replicate 7 1 ++
        sealedStream (processCredentials ⟨[112], none⟩ (List.replicate 16 0))
          (List.replicate 7 1)
          (le 4 (serializeHeader ⟨false, [98], 1⟩).length
            ++ (serializeHeader ⟨false, [98], 1⟩ ++ (fun s => s) [9]))) :=
  claim_C7_container_format (fun s => s) ⟨[112], none⟩ (List.replicate 16 0)
    (List.replicate 7 1) [98] [9] (by decide) (by decide) (by decide)

/-- C8: the derived key equals Argon2 (default parameters) applied to
`password_utf8_bytes ++ sha256(keyfile_contents)` when a keyfile is given and to
the password bytes alone otherwise, over the container's salt, with a 32-byte
output — the code's `process_credentials` agrees with the spec's formula. -/
theorem claim_C8_kdf (creds : Creds) (salt : List Nat) :
    processCredentials creds salt = specDerivedKey creds.password creds.keyfile salt ∧
    (processCredentials creds salt).length = 32 := by
  constructor
  · cases hk : creds.keyfile <;>
      simp [processCredentials, processCredentialsFull, specDerivedKey, hk]
  · exact processCredentials_length creds salt

/-- C9: the claim says the password buffer, the keyfile digest, AND the
concatenation buffer are all explicitly zeroed after key derivation.  The code
zeroizes only the password and the concatenation buffer; the SHA-256 digest
buffer is dropped unwiped, still holding the keyfile's digest (credential
material) after `process_credentials` returns — here, concretely, a nonzero
32-byte value. -/
theorem claim_C9_digest_not_zeroized :
    ((processCredentialsFull ⟨[112, 119], some [42]⟩ (List.replicate 16 0)).2).digest
        = some (sha256M [42]) ∧
    sha256M [42] ≠ List.replicate 32 0 ∧
    ((processCredentialsFull ⟨[112, 119], some [42]⟩ (List.replicate 16 0)).2).password
        = List.replicate 2 0 ∧
    ((processCredentialsFull ⟨[112, 119], some [42]⟩ (List.replicate 16 0)).2).combined
        = List.replicate 34 0 := by
  refine ⟨rfl, by decide, rfl, rfl⟩

/-- C10: end-of-stream is sticky in the opener — once `eof` is set, every later
`read` call made after the plaintext buffer is drained returns `Ok(0)` with the
state unchanged: no further inner reads and no further decryptions occur, even
if more bytes are available in the inner source. -/
theorem claim_C10_sticky_eof (r : DecryptedReader) (n : Nat)
    (he : r.eof = true) (ho : r.buffer.length ≤ r.offset) :
    readStep r n = .ok ([], r) :=
  readStep_sticky r n he ho

theorem claim_C10_witness :
    readStep { inner := [1, 2, 3], key := [0], nonce := [0], counter := 5, buffer := [9], offset := 1, eof := true } 4
      = .ok ([], { inner := [1, 2, 3], key := [0], nonce := [0], counter := 5, buffer := [9], offset := 1, eof := true }) :=
  claim_C10_sticky_eof { inner := [1, 2, 3], key := [0], nonce := [0], counter := 5, buffer := [9], offset := 1, eof := true } 4 rfl (by decide)

end Rstf
